import Mathlib

/-!
Verification development for the vril text format (`bril-txt/vriltxt.py`).

The Python module defines a Lark grammar together with a `JSONTransformer`
lowering pass (text to structured representation) and a pretty-printer
(`instr_to_string`, `print_instr`, `print_label`, `print_func`, `print_prog`).
This file embeds both directions shallowly:

* The structured representation mirrors the JSON dictionaries produced by the
  transformer: an instruction is a record of optional fields (`op`, `dest`,
  `type`, `value`, `args`, `label`); a field being `none` models the key being
  absent from the dictionary.
* The lexer models Lark's standard dynamic lexing of the grammar's terminals
  (`IDENT`, `AIDENT`, `CNAME`, `BOOL`, `SIGNED_INT`, punctuation, `WS`,
  `COMMENT`): lexing is longest-match per terminal, and since all the word-like
  terminals draw from one alphabet (letters, digits, `_`, `%`, `.`, `[`, `]`),
  a maximal run of that alphabet is one token, classified by the rule that
  consumes it.  Signed integers are a sign character followed by a digit run.
* The parser models the Earley parse with the declared rule priorities
  `init.6 > const.5 > vop.4 > aop.3 > eop.2 > label.1`: at each instruction
  position the candidate rules are tried highest priority first.
* Crashes of the Python printer (`KeyError` on a missing dictionary key) are
  modelled by `Option`: `none` means the call raises.

All recursion is structural (fuel-based where the source loops on data), so
every definition evaluates on concrete inputs inside the kernel.
-/

/-! ## Character classes of the grammar's terminals -/

/-- Whitespace accepted by the ignored `WS` terminal. -/
def isWs (c : Char) : Bool := c = ' ' || c = '\t' || c = '\n' || c = '\r'

/-- The `LETTER` terminal class (upper or lower case ASCII letter). -/
def isLetterChar (c : Char) : Bool :=
  ('a' ≤ c && c ≤ 'z') || ('A' ≤ c && c ≤ 'Z')

/-- The `DIGIT` terminal class. -/
def isDigitChar (c : Char) : Bool := '0' ≤ c && c ≤ '9'

/-- First character of `IDENT` and `AIDENT`: `("_"|"%"|LETTER)`. -/
def isIdentStart (c : Char) : Bool := c = '_' || c = '%' || isLetterChar c

/-- Continuation character of `IDENT`: `("_"|"%"|"."|LETTER|DIGIT)`. -/
def isIdentChar (c : Char) : Bool := isIdentStart c || c = '.' || isDigitChar c

/-- Continuation character of `AIDENT`: the `IDENT` alphabet plus `[` and `]`. -/
def isAidentChar (c : Char) : Bool := isIdentChar c || c = '[' || c = ']'

/-- First character of `CNAME`: `("_"|LETTER)`. -/
def isCnameStart (c : Char) : Bool := c = '_' || isLetterChar c

/-- Continuation character of `CNAME`: `("_"|LETTER|DIGIT)`. -/
def isCnameChar (c : Char) : Bool := isCnameStart c || isDigitChar c

/-- The combined word alphabet: every continuation character of any of the
word-like terminals (`AIDENT` has the largest alphabet). -/
def isWordChar (c : Char) : Bool := isAidentChar c

/-- Does a whole string belong to a terminal class given by a start-character
predicate and a continuation-character predicate? -/
def strClass (start ch : Char → Bool) (s : String) : Bool :=
  match s.data with
  | [] => false
  | c :: cs => start c && cs.all ch

/-- Membership in the `IDENT` terminal (scalar identifier class). -/
def isIdent (s : String) : Bool := strClass isIdentStart isIdentChar s

/-- Membership in the `AIDENT` terminal (array-element identifier class). -/
def isAident (s : String) : Bool := strClass isIdentStart isAidentChar s

/-- Membership in the `CNAME` terminal. -/
def isCname (s : String) : Bool := strClass isCnameStart isCnameChar s

/-- Does the string contain a literal bracket character? -/
def hasBracket (s : String) : Bool := s.data.any fun c => c = '[' || c = ']'

/-! ## The structured representation

The transformer produces JSON dictionaries.  `Instr` models one

instruction/label dictionary; a `none` field models an absent key. -/

/-- A literal: the `lit` rule lowers `SIGNED_INT` to a Python `int` and `BOOL`
to a Python `bool`. -/
inductive Lit where
  | int (n : Int)
  | bool (b : Bool)
deriving DecidableEq, Repr

/-- One instruction or label dictionary as produced by the transformer or
consumed by the printer.  Each field models the JSON key of the same name. -/
structure Instr where
  op : Option String := none
  dest : Option String := none
  type : Option String := none
  value : Option Lit := none
  args : Option (List String) := none
  label : Option String := none
deriving DecidableEq, Repr

/-- A function dictionary: `{'name': ..., 'instrs': ...}`. -/
structure Func where
  name : String
  instrs : List Instr
deriving DecidableEq, Repr

/-- A program dictionary: `{'functions': ...}`. -/
structure Program where
  functions : List Func
deriving DecidableEq, Repr

/-! ## The lowering (`JSONTransformer`) -/

/-- `JSONTransformer.start`: wrap the function list. -/
def JSONTransformer.start (items : List Func) : Program := ⟨items⟩

/-- `JSONTransformer.func`: first child is the name, the rest the instructions. -/
def JSONTransformer.func (name : String) (instrs : List Instr) : Func :=
  ⟨name, instrs⟩

/-- `JSONTransformer.init`: dest, type and lowered literal value. -/
def JSONTransformer.init (dest ty : String) (val : Lit) : Instr :=
  { op := some "init", dest := some dest, type := some ty, value := some val }

/-- `JSONTransformer.const`: dest, type and lowered literal value. -/
def JSONTransformer.const (dest ty : String) (val : Lit) : Instr :=
  { op := some "const", dest := some dest, type := some ty, value := some val }

/-- `JSONTransformer.vop`: dest, type, opcode and the remaining children as
the argument list. -/
def JSONTransformer.vop (dest ty op : String) (args : List String) : Instr :=
  { op := some op, dest := some dest, type := some ty, args := some args }

/-- `JSONTransformer.aop`: dest, type, opcode and the remaining children as
the argument list. -/
def JSONTransformer.aop (dest ty op : String) (args : List String) : Instr :=
  { op := some op, dest := some dest, type := some ty, args := some args }

/-- `JSONTransformer.eop`: opcode and the remaining children as arguments. -/
def JSONTransformer.eop (op : String) (args : List String) : Instr :=
  { op := some op, args := some args }

/-- `JSONTransformer.label`: the carried name. -/
def JSONTransformer.label (name : String) : Instr :=
  { label := some name }

/-- Digit value of a decimal digit character. -/
def digitVal (c : Char) : Nat := c.toNat - '0'.toNat

/-- Value of a decimal digit run, most significant first. -/
def natOfDigits (l : List Char) : Nat :=
  l.foldl (fun a c => 10 * a + digitVal c) 0

/-- `JSONTransformer.int`: Python `int(...)` applied to the text of a
`SIGNED_INT` token (an optional sign followed by a digit run; the empty
string never reaches this function, since every token is nonempty). -/
def JSONTransformer.int (s : String) : Int :=
  match s.data with
  | [] => 0
  | c :: ds =>
    if c = '-' then - (natOfDigits ds : Int)
    else if c = '+' then (natOfDigits ds : Int)
    else (natOfDigits (c :: ds) : Int)

/-- `JSONTransformer.bool`: the token text `'true'` maps to `True`, anything
else (i.e. `'false'`) to `False`. -/
def JSONTransformer.bool (s : String) : Bool :=
  if s = "true" then true else false

/-! ## The lexer

Lark's grammar uses the standard (longest-match) dynamic lexer for the
Earley parser.  All word-like terminals share the `AIDENT` alphabet, so a
maximal run over that alphabet is one token; a `SIGNED_INT` is an optional
sign followed by a maximal digit run; whitespace and `#`-comments are
skipped.  The fuel argument only bounds the recursion; `lex` supplies fuel
equal to the input length, which always suffices. -/

/-- One lexical token of the grammar. -/
inductive Tok where
  | lbrace
  | rbrace
  | colon
  | eq
  | semi
  | word (s : String)
  | int (s : String)
deriving DecidableEq, Repr

/-- One lexer step on the first character `c`: dispatch on its class, emit a
token (or skip) and continue through `k` on the not-yet-consumed characters. -/
def lexStep (c : Char) (cs : List Char) (k : List Char → Option (List Tok)) :
    Option (List Tok) :=
  if isWs c then k cs
  else if c = '#' then k (cs.dropWhile fun d => !(d = '\n'))
  else if c = '{' then (k cs).map (Tok.lbrace :: ·)
  else if c = '}' then (k cs).map (Tok.rbrace :: ·)
  else if c = ':' then (k cs).map (Tok.colon :: ·)
  else if c = '=' then (k cs).map (Tok.eq :: ·)
  else if c = ';' then (k cs).map (Tok.semi :: ·)
  else if isDigitChar c then
    (k (cs.dropWhile isDigitChar)).map
      (Tok.int (String.mk (c :: cs.takeWhile isDigitChar)) :: ·)
  else if isWordChar c then
    (k (cs.dropWhile isWordChar)).map
      (Tok.word (String.mk (c :: cs.takeWhile isWordChar)) :: ·)
  else if c = '-' || c = '+' then
    match cs with
    | [] => none
    | d :: _ =>
      if isDigitChar d then
        (k (cs.dropWhile isDigitChar)).map
          (Tok.int (String.mk (c :: cs.takeWhile isDigitChar)) :: ·)
      else none
  else none

/-- Fuelled lexer loop.  Every step consumes at least one character, so fuel
equal to the input length suffices. -/
def lexF : Nat → List Char → Option (List Tok)
  | _, [] => some []
  | 0, _ :: _ => none
  | fuel + 1, c :: cs => lexStep c cs (lexF fuel)

/-- Tokenise a character list. -/
def lex (l : List Char) : Option (List Tok) := lexF l.length l

/-! ## The parser

One matcher per grammar rule, tried in the declared priority order
`init.6 > const.5 > vop.4 > aop.3 > eop.2 > label.1`.  Each matcher consumes
a prefix of the token list and returns the lowered instruction together with
the remaining tokens. -/

/-- Lower the `lit` rule: a `SIGNED_INT` token or a `BOOL` keyword. -/
def matchLit : Tok → Option Lit
  | .int s => some (.int (JSONTransformer.int s))
  | .word s =>
    if s = "true" || s = "false" then some (.bool (JSONTransformer.bool s))
    else none
  | _ => none

/-- Rule `init.6: IDENT ":" type "=" "init" lit ";"`. -/
def matchInit : List Tok → Option (Instr × List Tok)
  | .word d :: .colon :: .word t :: .eq :: .word kw :: rest =>
    if kw = "init" && isIdent d && isCname t then
      match rest with
      | lt :: .semi :: rest2 =>
        (matchLit lt).map fun v => (JSONTransformer.init d t v, rest2)
      | _ => none
    else none
  | _ => none

/-- Rule `const.5: IDENT ":" type "=" "const" lit ";"`. -/
def matchConst : List Tok → Option (Instr × List Tok)
  | .word d :: .colon :: .word t :: .eq :: .word kw :: rest =>
    if kw = "const" && isIdent d && isCname t then
      match rest with
      | lt :: .semi :: rest2 =>
        (matchLit lt).map fun v => (JSONTransformer.const d t v, rest2)
      | _ => none
    else none
  | _ => none

/-- Greedily take the maximal run of word tokens belonging to a class. -/
def takeArgs (cls : String → Bool) : List Tok → List String × List Tok
  | .word w :: rest =>
    if cls w then
      let (as, r) := takeArgs cls rest
      (w :: as, r)
    else ([], .word w :: rest)
  | rest => ([], rest)

/-- Rule `vop.4: IDENT ":" type "=" CNAME IDENT* ";"`. -/
def matchVop : List Tok → Option (Instr × List Tok)
  | .word d :: .colon :: .word t :: .eq :: .word op :: rest =>
    if isIdent d && isCname t && isCname op then
      match takeArgs isIdent rest with
      | (args, .semi :: rest2) => some (JSONTransformer.vop d t op args, rest2)
      | _ => none
    else none
  | _ => none

/-- Rule `aop.3: AIDENT ":" type "=" CNAME AIDENT* ";"`. -/
def matchAop : List Tok → Option (Instr × List Tok)
  | .word d :: .colon :: .word t :: .eq :: .word op :: rest =>
    if isAident d && isCname t && isCname op then
      match takeArgs isAident rest with
      | (args, .semi :: rest2) => some (JSONTransformer.aop d t op args, rest2)
      | _ => none
    else none
  | _ => none

/-- Rule `eop.2: CNAME IDENT* ";"`. -/
def matchEop : List Tok → Option (Instr × List Tok)
  | .word op :: rest =>
    if isCname op then
      match takeArgs isIdent rest with
      | (args, .semi :: rest2) => some (JSONTransformer.eop op args, rest2)
      | _ => none
    else none
  | _ => none

/-- Rule `label.1: IDENT ":"`. -/
def matchLabel : List Tok → Option (Instr × List Tok)
  | .word l :: .colon :: rest =>
    if isIdent l then some (JSONTransformer.label l, rest) else none
  | _ => none

/-- Parse one instruction, trying the rules in priority order. -/
def parseInstr (toks : List Tok) : Option (Instr × List Tok) :=
  (matchInit toks).orElse fun _ =>
  (matchConst toks).orElse fun _ =>
  (matchVop toks).orElse fun _ =>
  (matchAop toks).orElse fun _ =>
  (matchEop toks).orElse fun _ =>
  matchLabel toks

/-- Parse `instr*` up to and including the closing `}` of a function body. -/
def parseInstrs : Nat → List Tok → Option (List Instr × List Tok)
  | _, .rbrace :: rest => some ([], rest)
  | fuel + 1, toks =>
    (parseInstr toks).bind fun ir =>
      (parseInstrs fuel ir.2).map fun isr => (ir.1 :: isr.1, isr.2)
  | 0, _ => none

/-- Parse `func*` (rule `func: CNAME "{" instr* "}"`) until the input ends. -/
def parseFuncs : Nat → List Tok → Option (List Func)
  | _, [] => some []
  | fuel + 1, .word name :: .lbrace :: toks =>
    if isCname name then
      (parseInstrs fuel toks).bind fun isr =>
        (parseFuncs fuel isr.2).map fun fs =>
          JSONTransformer.func name isr.1 :: fs
    else none
  | _, _ => none

/-- `parse_bril`: lex and parse the source text and lower the parse tree to
the structured representation; `none` models the fatal `SyntaxError` raised
on any input not derivable from the grammar.  (Serialising the result to a
JSON string is the concern of the excluded CLI layer.) -/
def parse_bril (txt : String) : Option Program :=
  (lex txt.data).bind fun toks =>
    (parseFuncs (toks.length + 1) toks).map JSONTransformer.start

/-! ## The pretty-printer -/

/-- Decimal digit run of a natural number, most significant digit first
(fuelled; fuel at least the number itself suffices). -/
def pyStrNatAux : Nat → Nat → List Char
  | 0, n => [Nat.digitChar (n % 10)]
  | fuel + 1, n =>
    if n < 10 then [Nat.digitChar n]
    else pyStrNatAux fuel (n / 10) ++ [Nat.digitChar (n % 10)]

/-- Decimal digit run of a natural number. -/
def pyStrNatChars (n : Nat) : List Char := pyStrNatAux n n

/-- Python `str` of an `int`: canonical decimal, a leading `-` if negative. -/
def pyStrInt : Int → String
  | .ofNat m => String.mk (pyStrNatChars m)
  | .negSucc m => String.mk ('-' :: pyStrNatChars (m + 1))

/-- Python `str(value).lower()` on a lowered literal: the decimal for an
`int`, the lowercase keyword for a `bool`. -/
def litToString : Lit → String
  | .int n => pyStrInt n
  | .bool b => if b then "true" else "false"

/-- Python `' '.join(...)`. -/
def joinSpace : List String → String
  | [] => ""
  | [a] => a
  | a :: rest => a ++ " " ++ joinSpace rest

/-- `instr_to_string`: branch on the `'op'` key.  `none` models a `KeyError`
(a key the taken branch reads is absent, or `'op'` itself is absent). -/
def instr_to_string (i : Instr) : Option String :=
  match i.op with
  | none => none
  | some op =>
    if op = "const" then
      match i.dest, i.type, i.value with
      | some d, some t, some v =>
        some (d ++ ": " ++ t ++ " = const " ++ litToString v)
      | _, _, _ => none
    else if op = "init" then
      match i.dest, i.type, i.value with
      | some d, some t, some v =>
        some (d ++ ": " ++ t ++ " = init " ++ litToString v)
      | _, _, _ => none
    else if i.dest.isSome then
      match i.dest, i.type, i.args with
      | some d, some t, some args =>
        some (d ++ ": " ++ t ++ " = " ++ op ++ " " ++ joinSpace args)
      | _, _, _ => none
    else
      match i.args with
      | some args => some (op ++ " " ++ joinSpace args)
      | none => none

/-- `print_instr`: the rendered instruction, two-space indented, with the
trailing `;`, as one output line. -/
def print_instr (i : Instr) : Option String :=
  (instr_to_string i).map fun s => "  " ++ s ++ ";"

/-- `print_label`: the label name followed by `:`, as one output line (no
indentation). -/
def print_label (i : Instr) : Option String :=
  i.label.map fun l => l ++ ":"

/-- Sequential printing of a list, stopping at the first crash (the Python
loops print eagerly; a raise aborts the whole conversion, modelled as `none`). -/
def optionMapM {α β : Type} (f : α → Option β) : List α → Option (List β)
  | [] => some []
  | a :: l => (f a).bind fun b => (optionMapM f l).map fun bs => b :: bs

/-- The line printed for one instruction-or-label dictionary: the body loop of
`print_func` dispatches on the presence of the `'label'` key. -/
def bodyLine (i : Instr) : Option String :=
  if i.label.isSome then print_label i else print_instr i

/-- `print_func`: the header line, one line per instruction or label (labels
are recognised by the presence of the `'label'` key), and the closing brace. -/
def print_func (f : Func) : Option (List String) :=
  (optionMapM bodyLine f.instrs).map
    fun body => (f.name ++ " \x7b") :: body ++ ["\x7d"]

/-- `print_prog`: all functions in order. -/
def print_prog (p : Program) : Option (List String) :=
  (optionMapM print_func p.functions).map List.flatten

/-- The text written to standard output: every line followed by a newline. -/
def linesText : List String → String
  | [] => ""
  | l :: ls => l ++ "\n" ++ linesText ls

/-- The full printed text of a program (`none` models the printer raising). -/
def progText (p : Program) : Option String :=
  (print_prog p).map linesText

/-! ## The data model of the specification

`SInstr` is the tagged union of instruction variants from the specification's
data model (Label, Const, Init, ValueOp, ArrayOp, EffectOp); `toInstr` maps a
variant to the dictionary the lowering produces for it / the printer consumes
for it. -/

/-- The instruction variants of the specification's data model. -/
inductive SInstr where
  | label (name : String)
  | const (dest ty : String) (value : Lit)
  | init (dest ty : String) (value : Lit)
  | valueOp (dest ty op : String) (args : List String)
  | arrayOp (dest ty op : String) (args : List String)
  | effectOp (op : String) (args : List String)
deriving DecidableEq, Repr

/-- The dictionary corresponding to an instruction variant. -/
def toInstr : SInstr → Instr
  | .label n => JSONTransformer.label n
  | .const d t v => JSONTransformer.const d t v
  | .init d t v => JSONTransformer.init d t v
  | .valueOp d t o a => JSONTransformer.vop d t o a
  | .arrayOp d t o a => JSONTransformer.aop d t o a
  | .effectOp o a => JSONTransformer.eop o a

/-- A function of the specification's data model. -/
structure SFunc where
  name : String
  instrs : List SInstr
deriving DecidableEq, Repr

/-- A program of the specification's data model. -/
structure SProg where
  functions : List SFunc
deriving DecidableEq, Repr

/-- The function dictionary of a data-model function. -/
def toFunc (f : SFunc) : Func :=
  JSONTransformer.func f.name (f.instrs.map toInstr)

/-- The program dictionary of a data-model program. -/
def toProg (p : SProg) : Program :=
  JSONTransformer.start (p.functions.map toFunc)

/-- Does `s` start with the keyword `kw` and continue with text that the
dynamic lexer can read back as a single literal token (a digit run or a bool
keyword)?  For such opcodes the higher-priority `const`/`init` rule wins over
`vop` when the printed operand list is empty, so the printed text does not
lower back to the original record. -/
def fusesWith (kw s : String) : Bool :=
  (s.take kw.length == kw) &&
    (let r := s.drop kw.length
     !(r == "") && (r.data.all isDigitChar || r == "true" || r == "false"))

/-- An opcode the printed text reads back as the same opcode token: a `CNAME`
distinct from the reserved `const` / `init` keywords. -/
def goodOpcode (o : String) : Bool :=
  isCname o && !(o == "const") && !(o == "init")

/-- Lexical well-formedness of a data-model instruction: every identifier is
in its declared class, opcodes and types are `CNAME`s, opcodes are not the
literal keywords `const`/`init`, and a printed empty-operand instruction with
a scalar dest does not fuse into a `const`/`init` parse. -/
def wfS : SInstr → Bool
  | .label n => isIdent n
  | .const d t _ => isIdent d && isCname t
  | .init d t _ => isIdent d && isCname t
  | .valueOp d t o a =>
    isIdent d && isCname t && goodOpcode o && a.all isIdent &&
      !(a.isEmpty && (fusesWith "const" o || fusesWith "init" o))
  | .arrayOp d t o a =>
    isAident d && isCname t && goodOpcode o && a.all isAident &&
      !(a.isEmpty && isIdent d && (fusesWith "const" o || fusesWith "init" o))
  | .effectOp o a => goodOpcode o && a.all isIdent

/-- Lexical well-formedness of a data-model function. -/
def wfSFunc (f : SFunc) : Bool := isCname f.name && f.instrs.all wfS

/-- Lexical well-formedness of a data-model program. -/
def wfSProg (p : SProg) : Bool := p.functions.all wfSFunc

/-! ## List and lexer infrastructure lemmas -/

/-- The head of the list (if any) fails the predicate. -/
def headNot (p : Char → Bool) : List Char → Bool
  | [] => true
  | c :: _ => !(p c)

theorem length_dropWhile_le (p : Char → Bool) (l : List Char) :
    (l.dropWhile p).length ≤ l.length := by
  induction l with
  | nil => simp
  | cons a t ih =>
    by_cases h : p a
    · simp only [List.dropWhile_cons, h, if_pos]
      exact Nat.le_succ_of_le ih
    · simp [List.dropWhile_cons, h]

theorem takeWhile_all_append (p : Char → Bool) (l r : List Char)
    (hl : l.all p = true) (hr : headNot p r = true) :
    (l ++ r).takeWhile p = l := by
  induction l with
  | nil =>
    cases r with
    | nil => rfl
    | cons a t =>
      simp only [headNot, Bool.not_eq_true'] at hr
      simp [List.takeWhile_cons, hr]
  | cons a t ih =>
    simp only [List.all_cons, Bool.and_eq_true] at hl
    simpa [List.takeWhile_cons, hl.1] using ih hl.2

theorem dropWhile_all_append (p : Char → Bool) (l r : List Char)
    (hl : l.all p = true) (hr : headNot p r = true) :
    (l ++ r).dropWhile p = r := by
  induction l with
  | nil =>
    cases r with
    | nil => rfl
    | cons a t =>
      simp only [headNot, Bool.not_eq_true'] at hr
      simp [List.dropWhile_cons, hr]
  | cons a t ih =>
    simp only [List.all_cons, Bool.and_eq_true] at hl
    simpa [List.dropWhile_cons, hl.1] using ih hl.2

theorem lexStep_congr (c : Char) (cs : List Char)
    (k1 k2 : List Char → Option (List Tok))
    (hk : ∀ l : List Char, l.length ≤ cs.length → k1 l = k2 l) :
    lexStep c cs k1 = lexStep c cs k2 := by
  have hdw : ∀ p : Char → Bool, (cs.dropWhile p).length ≤ cs.length :=
    fun p => length_dropWhile_le p cs
  unfold lexStep
  by_cases h1 : isWs c = true
  · rw [if_pos h1, if_pos h1, hk cs le_rfl]
  rw [if_neg h1, if_neg h1]
  by_cases h2 : c = '#'
  · rw [if_pos h2, if_pos h2, hk _ (hdw _)]
  rw [if_neg h2, if_neg h2]
  by_cases h3 : c = '{'
  · rw [if_pos h3, if_pos h3, hk cs le_rfl]
  rw [if_neg h3, if_neg h3]
  by_cases h4 : c = '}'
  · rw [if_pos h4, if_pos h4, hk cs le_rfl]
  rw [if_neg h4, if_neg h4]
  by_cases h5 : c = ':'
  · rw [if_pos h5, if_pos h5, hk cs le_rfl]
  rw [if_neg h5, if_neg h5]
  by_cases h6 : c = '='
  · rw [if_pos h6, if_pos h6, hk cs le_rfl]
  rw [if_neg h6, if_neg h6]
  by_cases h7 : c = ';'
  · rw [if_pos h7, if_pos h7, hk cs le_rfl]
  rw [if_neg h7, if_neg h7]
  by_cases h8 : isDigitChar c = true
  · rw [if_pos h8, if_pos h8, hk _ (hdw _)]
  rw [if_neg h8, if_neg h8]
  by_cases h9 : isWordChar c = true
  · rw [if_pos h9, if_pos h9, hk _ (hdw _)]
  rw [if_neg h9, if_neg h9]
  by_cases h10 : (c = '-' || c = '+') = true
  · rw [if_pos h10, if_pos h10]
    cases cs with
    | nil => rfl
    | cons d ds =>
      dsimp only
      by_cases hd : isDigitChar d = true
      · rw [if_pos hd, if_pos hd, hk _ (hdw _)]
      · rw [if_neg hd, if_neg hd]
  · rw [if_neg h10, if_neg h10]

theorem lexF_fuel : ∀ (f1 : Nat) (l : List Char) (f2 : Nat),
    l.length ≤ f1 → l.length ≤ f2 → lexF f1 l = lexF f2 l := by
  intro f1
  induction f1 with
  | zero =>
    intro l f2 h1 _
    have hl : l = [] := List.length_eq_zero.mp (Nat.le_zero.mp h1)
    subst hl
    cases f2 <;> rfl
  | succ f ih =>
    intro l f2 h1 h2
    cases l with
    | nil => cases f2 <;> rfl
    | cons c cs =>
      cases f2 with
      | zero => simp at h2
      | succ g =>
        show lexStep c cs (lexF f) = lexStep c cs (lexF g)
        exact lexStep_congr c cs _ _ fun l hl =>
          ih l g (Nat.le_trans hl (Nat.succ_le_succ_iff.mp h1))
            (Nat.le_trans hl (Nat.succ_le_succ_iff.mp h2))

/-- Unfold one lexer step through the `lex` wrapper. -/
theorem lex_cons (c : Char) (cs : List Char) :
    lex (c :: cs) = lexStep c cs lex := by
  show lexStep c cs (lexF cs.length) = lexStep c cs lex
  exact lexStep_congr c cs _ _ fun l hl => lexF_fuel cs.length l l.length hl le_rfl

/-! ## Character-class facts -/

theorem letter_not_digit {c : Char} (h : isLetterChar c = true) :
    isDigitChar c = false := by
  by_cases h9 : c ≤ '9'
  · exfalso
    simp only [isLetterChar, Bool.or_eq_true, Bool.and_eq_true, decide_eq_true_eq] at h
    rcases h with ⟨h1, _⟩ | ⟨h1, _⟩
    · exact absurd (le_trans h1 h9) (by decide)
    · exact absurd (le_trans h1 h9) (by decide)
  · simp [isDigitChar, h9]

theorem identStart_not_digit {c : Char} (h : isIdentStart c = true) :
    isDigitChar c = false := by
  simp only [isIdentStart, Bool.or_eq_true, decide_eq_true_eq] at h
  rcases h with (h | h) | h
  · subst h; rfl
  · subst h; rfl
  · exact letter_not_digit h

theorem identChar_word {c : Char} (h : isIdentChar c = true) :
    isWordChar c = true := by
  simp [isWordChar, isAidentChar, h]

theorem aidentChar_word {c : Char} (h : isAidentChar c = true) :
    isWordChar c = true := h

theorem identStart_word {c : Char} (h : isIdentStart c = true) :
    isWordChar c = true := by
  simp [isWordChar, isAidentChar, isIdentChar, h]

theorem digit_word {c : Char} (h : isDigitChar c = true) :
    isWordChar c = true := by
  simp [isWordChar, isAidentChar, isIdentChar, h]

theorem cnameStart_identStart {c : Char} (h : isCnameStart c = true) :
    isIdentStart c = true := by
  simp only [isCnameStart, Bool.or_eq_true] at h
  rcases h with h | h <;> simp [isIdentStart, h]

theorem cnameChar_word {c : Char} (h : isCnameChar c = true) :
    isWordChar c = true := by
  simp only [isCnameChar, Bool.or_eq_true] at h
  rcases h with h | h
  · exact identStart_word (cnameStart_identStart h)
  · exact digit_word h

theorem ws_not_word {c : Char} (h : isWs c = true) : isWordChar c = false := by
  by_cases e1 : c = ' '
  · subst e1; rfl
  by_cases e2 : c = '\t'
  · subst e2; rfl
  by_cases e3 : c = '\n'
  · subst e3; rfl
  by_cases e4 : c = '\r'
  · subst e4; rfl
  simp [isWs, e1, e2, e3, e4] at h

theorem word_no_special {c : Char} (h : isWordChar c = true) :
    isWs c = false ∧ ¬ c = '#' ∧ ¬ c = '{' ∧ ¬ c = '}' ∧ ¬ c = ':' ∧
      ¬ c = '=' ∧ ¬ c = ';' ∧ ¬ c = '-' ∧ ¬ c = '+' := by
  refine ⟨?_, ?_, ?_, ?_, ?_, ?_, ?_, ?_, ?_⟩
  · cases hw : isWs c with
    | false => rfl
    | true => rw [ws_not_word hw] at h; exact absurd h (by simp)
  all_goals (intro e; subst e; exact absurd h (by decide))

/-! ## Lexing one token at a time -/

theorem lex_ws {c : Char} (h : isWs c = true) (cs : List Char) :
    lex (c :: cs) = lex cs := by
  rw [lex_cons]; unfold lexStep; rw [if_pos h]

theorem lex_lbrace (cs : List Char) :
    lex ('{' :: cs) = (lex cs).map (Tok.lbrace :: ·) := by
  rw [lex_cons]; rfl

theorem lex_rbrace (cs : List Char) :
    lex ('}' :: cs) = (lex cs).map (Tok.rbrace :: ·) := by
  rw [lex_cons]; rfl

theorem lex_colon (cs : List Char) :
    lex (':' :: cs) = (lex cs).map (Tok.colon :: ·) := by
  rw [lex_cons]; rfl

theorem lex_eq_tok (cs : List Char) :
    lex ('=' :: cs) = (lex cs).map (Tok.eq :: ·) := by
  rw [lex_cons]; rfl

theorem lex_semi (cs : List Char) :
    lex (';' :: cs) = (lex cs).map (Tok.semi :: ·) := by
  rw [lex_cons]; rfl

theorem lex_word_chars (c : Char) (cs rest : List Char)
    (h : isWordChar c = true) (hd : isDigitChar c = false)
    (hcs : cs.all isWordChar = true) (hr : headNot isWordChar rest = true) :
    lex (c :: (cs ++ rest)) = (lex rest).map (Tok.word (String.mk (c :: cs)) :: ·) := by
  obtain ⟨h1, h2, h3, h4, h5, h6, h7, _, _⟩ := word_no_special h
  rw [lex_cons]
  unfold lexStep
  rw [if_neg (by simp [h1]), if_neg h2, if_neg h3, if_neg h4, if_neg h5, if_neg h6,
    if_neg h7, if_neg (by simp [hd]), if_pos h,
    takeWhile_all_append _ _ _ hcs hr, dropWhile_all_append _ _ _ hcs hr]

theorem lex_digits_chars (c : Char) (cs rest : List Char)
    (h : isDigitChar c = true) (hcs : cs.all isDigitChar = true)
    (hr : headNot isDigitChar rest = true) :
    lex (c :: (cs ++ rest)) = (lex rest).map (Tok.int (String.mk (c :: cs)) :: ·) := by
  obtain ⟨h1, h2, h3, h4, h5, h6, h7, _, _⟩ := word_no_special (digit_word h)
  rw [lex_cons]
  unfold lexStep
  rw [if_neg (by simp [h1]), if_neg h2, if_neg h3, if_neg h4, if_neg h5, if_neg h6,
    if_neg h7, if_pos h,
    takeWhile_all_append _ _ _ hcs hr, dropWhile_all_append _ _ _ hcs hr]

theorem lex_neg_digits (d : Char) (ds rest : List Char)
    (hd : isDigitChar d = true) (hds : ds.all isDigitChar = true)
    (hr : headNot isDigitChar rest = true) :
    lex ('-' :: d :: (ds ++ rest)) =
      (lex rest).map (Tok.int (String.mk ('-' :: d :: ds)) :: ·) := by
  rw [lex_cons]
  unfold lexStep
  rw [if_neg (show ¬ (isWs '-' = true) by decide),
    if_neg (show ¬ ('-' = '#') by decide),
    if_neg (show ¬ ('-' = '{') by decide),
    if_neg (show ¬ ('-' = '}') by decide),
    if_neg (show ¬ ('-' = ':') by decide),
    if_neg (show ¬ ('-' = '=') by decide),
    if_neg (show ¬ ('-' = ';') by decide),
    if_neg (show ¬ (isDigitChar '-' = true) by decide),
    if_neg (show ¬ (isWordChar '-' = true) by decide),
    if_pos (show (('-' = '-' : Bool) || ('-' = '+' : Bool)) = true by decide)]
  dsimp only
  rw [if_pos hd]
  have ht : List.takeWhile isDigitChar (d :: (ds ++ rest)) = d :: ds := by
    rw [List.takeWhile_cons, if_pos hd, takeWhile_all_append _ _ _ hds hr]
  have hw : List.dropWhile isDigitChar (d :: (ds ++ rest)) = rest := by
    rw [List.dropWhile_cons, if_pos hd, dropWhile_all_append _ _ _ hds hr]
  rw [ht, hw]

/-! ## String-level class inclusions and token lemmas -/

/-- A maximal-munch word token: a non-digit word character followed by word
characters. -/
def wordish (s : String) : Bool :=
  strClass (fun c => isWordChar c && !isDigitChar c) isWordChar s

theorem strClass_mono {s1 c1 s2 c2 : Char → Bool}
    (hs : ∀ c, s1 c = true → s2 c = true)
    (hc : ∀ c, c1 c = true → c2 c = true)
    (s : String) (h : strClass s1 c1 s = true) : strClass s2 c2 s = true := by
  unfold strClass at h ⊢
  cases hd : s.data with
  | nil => rw [hd] at h; exact absurd h (by simp)
  | cons c cs =>
    rw [hd] at h
    replace h : (s1 c && cs.all c1) = true := h
    show (s2 c && cs.all c2) = true
    simp only [Bool.and_eq_true, List.all_eq_true] at h ⊢
    exact ⟨hs c h.1, fun x hx => hc x (h.2 x hx)⟩

theorem ident_wordish {s : String} (h : isIdent s = true) : wordish s = true := by
  refine strClass_mono ?_ (fun c hc => identChar_word hc) s h
  intro c hc
  rw [Bool.and_eq_true, identStart_not_digit hc]
  exact ⟨identStart_word hc, rfl⟩

theorem aident_wordish {s : String} (h : isAident s = true) : wordish s = true := by
  refine strClass_mono ?_ (fun c hc => aidentChar_word hc) s h
  intro c hc
  rw [Bool.and_eq_true, identStart_not_digit hc]
  exact ⟨identStart_word hc, rfl⟩

theorem cname_wordish {s : String} (h : isCname s = true) : wordish s = true := by
  refine strClass_mono ?_ (fun c hc => cnameChar_word hc) s h
  intro c hc
  have hi := cnameStart_identStart hc
  rw [Bool.and_eq_true, identStart_not_digit hi]
  exact ⟨identStart_word hi, rfl⟩

theorem ident_aident {s : String} (h : isIdent s = true) : isAident s = true := by
  refine strClass_mono (fun c hc => hc) ?_ s h
  intro c hc
  simp [isAidentChar, hc]

theorem lex_word_str (w : String) (rest : List Char) (hw : wordish w = true)
    (hr : headNot isWordChar rest = true) :
    lex (w.data ++ rest) = (lex rest).map (Tok.word w :: ·) := by
  unfold wordish strClass at hw
  cases hd : w.data with
  | nil => rw [hd] at hw; exact absurd hw (by simp)
  | cons c cs =>
    rw [hd] at hw
    replace hw : ((isWordChar c && !isDigitChar c) && cs.all isWordChar) = true := hw
    simp only [Bool.and_eq_true] at hw
    have hmk : String.mk (c :: cs) = w := by rw [← hd]
    rw [show (c :: cs : List Char) ++ rest = c :: (cs ++ rest) from rfl,
      lex_word_chars c cs rest hw.1.1 (by simpa using hw.1.2) hw.2 hr, hmk]

/-! ## Decimal printing and its inverse -/

theorem digitChar_isDigit {d : Nat} (h : d < 10) :
    isDigitChar (Nat.digitChar d) = true := by
  interval_cases d <;> rfl

theorem digitVal_digitChar {d : Nat} (h : d < 10) :
    digitVal (Nat.digitChar d) = d := by
  interval_cases d <;> rfl

theorem pyStrNatAux_all : ∀ (fuel n : Nat),
    (pyStrNatAux fuel n).all isDigitChar = true := by
  intro fuel
  induction fuel with
  | zero =>
    intro n
    simp [pyStrNatAux, digitChar_isDigit (Nat.mod_lt n (by norm_num))]
  | succ f ih =>
    intro n
    unfold pyStrNatAux
    by_cases h : n < 10
    · simp [h, digitChar_isDigit h]
    · rw [if_neg h, List.all_append]
      simp [ih (n / 10), digitChar_isDigit (Nat.mod_lt n (by norm_num))]

theorem pyStrNatAux_ne_nil (fuel n : Nat) : pyStrNatAux fuel n ≠ [] := by
  cases fuel with
  | zero => simp [pyStrNatAux]
  | succ f =>
    unfold pyStrNatAux
    by_cases h : n < 10
    · simp [h]
    · simp [h]

theorem natOfDigits_append_digit (l : List Char) (c : Char) :
    natOfDigits (l ++ [c]) = 10 * natOfDigits l + digitVal c := by
  simp [natOfDigits, List.foldl_append]

theorem natOfDigits_pyStrNatAux : ∀ (fuel n : Nat), n ≤ fuel →
    natOfDigits (pyStrNatAux fuel n) = n := by
  intro fuel
  induction fuel with
  | zero =>
    intro n hn
    have : n = 0 := Nat.le_zero.mp hn
    subst this
    rfl
  | succ f ih =>
    intro n hn
    unfold pyStrNatAux
    by_cases h : n < 10
    · simp [h, natOfDigits, digitVal_digitChar h]
    · rw [if_neg h, natOfDigits_append_digit,
        ih (n / 10) ?_, digitVal_digitChar (Nat.mod_lt n (by norm_num))]
      · exact Nat.div_add_mod n 10
      · have h10 : 10 ≤ n := Nat.le_of_not_lt h
        have : n / 10 < n := Nat.div_lt_self (by omega) (by norm_num)
        omega

theorem natOfDigits_pyStrNatChars (n : Nat) : natOfDigits (pyStrNatChars n) = n :=
  natOfDigits_pyStrNatAux n n le_rfl

theorem digit_not_sign {c : Char} (h : isDigitChar c = true) :
    ¬ c = '-' ∧ ¬ c = '+' :=
  ⟨fun e => by subst e; exact absurd h (by decide),
   fun e => by subst e; exact absurd h (by decide)⟩

theorem pyInt_roundtrip (n : Int) : JSONTransformer.int (pyStrInt n) = n := by
  cases n with
  | ofNat m =>
    obtain ⟨c, cs, hd⟩ := List.exists_cons_of_ne_nil (pyStrNatAux_ne_nil m m)
    have hall := pyStrNatAux_all m m
    rw [hd] at hall
    simp only [List.all_cons, Bool.and_eq_true] at hall
    obtain ⟨hs1, hs2⟩ := digit_not_sign hall.1
    show JSONTransformer.int (String.mk (pyStrNatChars m)) = Int.ofNat m
    unfold JSONTransformer.int pyStrNatChars
    rw [show (String.mk (pyStrNatAux m m)).data = pyStrNatAux m m from rfl, hd]
    dsimp only
    rw [if_neg hs1, if_neg hs2, ← hd]
    rw [show pyStrNatAux m m = pyStrNatChars m from rfl, natOfDigits_pyStrNatChars]
    rfl
  | negSucc m =>
    show JSONTransformer.int (String.mk ('-' :: pyStrNatChars (m + 1))) = Int.negSucc m
    unfold JSONTransformer.int
    rw [show (String.mk ('-' :: pyStrNatChars (m + 1))).data =
      '-' :: pyStrNatChars (m + 1) from rfl]
    dsimp only
    rw [if_pos rfl, natOfDigits_pyStrNatChars, Int.negSucc_eq]
    omega

theorem lex_pyStrInt (n : Int) (rest : List Char)
    (hr : headNot isDigitChar rest = true) :
    lex ((pyStrInt n).data ++ rest) = (lex rest).map (Tok.int (pyStrInt n) :: ·) := by
  cases n with
  | ofNat m =>
    obtain ⟨c, cs, hd⟩ := List.exists_cons_of_ne_nil (pyStrNatAux_ne_nil m m)
    have hall := pyStrNatAux_all m m
    rw [hd] at hall
    simp only [List.all_cons, Bool.and_eq_true] at hall
    show lex ((String.mk (pyStrNatChars m)).data ++ rest) = _
    rw [show (String.mk (pyStrNatChars m)).data = pyStrNatChars m from rfl]
    unfold pyStrNatChars
    rw [hd, List.cons_append, lex_digits_chars c cs rest hall.1 hall.2 hr, ← hd]
    rfl
  | negSucc m =>
    obtain ⟨c, cs, hd⟩ :=
      List.exists_cons_of_ne_nil (pyStrNatAux_ne_nil (m + 1) (m + 1))
    have hall := pyStrNatAux_all (m + 1) (m + 1)
    rw [hd] at hall
    simp only [List.all_cons, Bool.and_eq_true] at hall
    show lex ((String.mk ('-' :: pyStrNatChars (m + 1))).data ++ rest) = _
    rw [show (String.mk ('-' :: pyStrNatChars (m + 1))).data =
      '-' :: pyStrNatChars (m + 1) from rfl]
    unfold pyStrNatChars
    rw [List.cons_append, hd, List.cons_append,
      lex_neg_digits c cs rest hall.1 hall.2 hr, ← hd]
    rfl

/-! ## Token sequences of printed instructions -/

/-- The token a printed literal lexes to. -/
def tokOfLit : Lit → Tok
  | .int n => Tok.int (pyStrInt n)
  | .bool b => Tok.word (if b then "true" else "false")

/-- The token sequence a printed instruction lexes to. -/
def toksOfInstr : SInstr → List Tok
  | .label n => [Tok.word n, Tok.colon]
  | .const d t v =>
    [Tok.word d, Tok.colon, Tok.word t, Tok.eq, Tok.word "const", tokOfLit v, Tok.semi]
  | .init d t v =>
    [Tok.word d, Tok.colon, Tok.word t, Tok.eq, Tok.word "init", tokOfLit v, Tok.semi]
  | .valueOp d t o a =>
    [Tok.word d, Tok.colon, Tok.word t, Tok.eq, Tok.word o] ++ a.map Tok.word ++ [Tok.semi]
  | .arrayOp d t o a =>
    [Tok.word d, Tok.colon, Tok.word t, Tok.eq, Tok.word o] ++ a.map Tok.word ++ [Tok.semi]
  | .effectOp o a => Tok.word o :: a.map Tok.word ++ [Tok.semi]

/-- The token sequence of a list of printed instructions. -/
def toksOfInstrs (l : List SInstr) : List Tok :=
  l.foldr (fun i acc => toksOfInstr i ++ acc) []

/-- The token sequence of a printed function. -/
def toksOfFunc (f : SFunc) : List Tok :=
  Tok.word f.name :: Tok.lbrace :: (toksOfInstrs f.instrs ++ [Tok.rbrace])

/-- The token sequence of a printed program. -/
def toksOfFuncs (l : List SFunc) : List Tok :=
  l.foldr (fun f acc => toksOfFunc f ++ acc) []

/-! ## Printer output, one instruction at a time -/

theorem instr_to_string_const (d t : String) (v : Lit) :
    instr_to_string (JSONTransformer.const d t v) =
      some (d ++ ": " ++ t ++ " = const " ++ litToString v) := rfl

theorem instr_to_string_init (d t : String) (v : Lit) :
    instr_to_string (JSONTransformer.init d t v) =
      some (d ++ ": " ++ t ++ " = init " ++ litToString v) := rfl

theorem instr_to_string_vop (d t o : String) (a : List String)
    (hc : ¬ o = "const") (hi : ¬ o = "init") :
    instr_to_string (JSONTransformer.vop d t o a) =
      some (d ++ ": " ++ t ++ " = " ++ o ++ " " ++ joinSpace a) := by
  unfold instr_to_string JSONTransformer.vop
  dsimp only
  rw [if_neg hc, if_neg hi]
  rfl

theorem instr_to_string_eop (o : String) (a : List String)
    (hc : ¬ o = "const") (hi : ¬ o = "init") :
    instr_to_string (JSONTransformer.eop o a) = some (o ++ " " ++ joinSpace a) := by
  unfold instr_to_string JSONTransformer.eop
  dsimp only
  rw [if_neg hc, if_neg hi]
  rfl

/-! ## Lexing printed literals and operand lists -/

theorem matchLit_tokOfLit (v : Lit) : matchLit (tokOfLit v) = some v := by
  cases v with
  | int n => simp [tokOfLit, matchLit, pyInt_roundtrip n]
  | bool b => cases b <;> rfl

theorem lex_lit (v : Lit) (r : List Char) :
    lex ((litToString v).data ++ ';' :: r) =
      (lex r).map fun ts => tokOfLit v :: Tok.semi :: ts := by
  cases v with
  | int n =>
    rw [show litToString (Lit.int n) = pyStrInt n from rfl,
      lex_pyStrInt n (';' :: r) rfl, lex_semi]
    cases lex r <;> rfl
  | bool b =>
    cases b
    · show lex (("false" : String).data ++ ';' :: r) = _
      rw [lex_word_str "false" (';' :: r) (by decide) rfl, lex_semi]
      cases lex r <;> rfl
    · show lex (("true" : String).data ++ ';' :: r) = _
      rw [lex_word_str "true" (';' :: r) (by decide) rfl, lex_semi]
      cases lex r <;> rfl

theorem lex_args : ∀ (args : List String) (r : List Char),
    args.all wordish = true →
    lex ((joinSpace args).data ++ ';' :: r) =
      (lex r).map fun ts => args.map Tok.word ++ Tok.semi :: ts := by
  intro args
  induction args with
  | nil =>
    intro r _
    rw [show (joinSpace []).data = [] from rfl, List.nil_append, lex_semi]
    rfl
  | cons a rest ih =>
    intro r hall
    rw [List.all_cons, Bool.and_eq_true] at hall
    cases rest with
    | nil =>
      rw [show joinSpace [a] = a from rfl,
        lex_word_str a (';' :: r) hall.1 rfl, lex_semi]
      cases lex r <;> rfl
    | cons b t =>
      rw [show joinSpace (a :: b :: t) = a ++ " " ++ joinSpace (b :: t) from rfl]
      simp only [String.data_append, show (" " : String).data = [' '] from rfl,
        List.append_assoc, List.cons_append, List.nil_append]
      rw [lex_word_str a (' ' :: ((joinSpace (b :: t)).data ++ ';' :: r)) hall.1 rfl]
      rw [lex_ws (show isWs ' ' = true from rfl), ih r hall.2]
      cases lex r <;> rfl

theorem goodOpcode_spec {o : String} (h : goodOpcode o = true) :
    isCname o = true ∧ ¬ o = "const" ∧ ¬ o = "init" := by
  simp only [goodOpcode, Bool.and_eq_true, Bool.not_eq_true',
    beq_eq_false_iff_ne] at h
  exact ⟨h.1.1, h.1.2, h.2⟩

theorem all_ident_wordish {a : List String} (h : a.all isIdent = true) :
    a.all wordish = true := by
  simp only [List.all_eq_true] at h ⊢
  exact fun x hx => ident_wordish (h x hx)

theorem all_aident_wordish {a : List String} (h : a.all isAident = true) :
    a.all wordish = true := by
  simp only [List.all_eq_true] at h ⊢
  exact fun x hx => aident_wordish (h x hx)

theorem lex_kw_const (rest : List Char) (hr : headNot isWordChar rest = true) :
    lex ('c' :: 'o' :: 'n' :: 's' :: 't' :: rest) =
      (lex rest).map (Tok.word "const" :: ·) :=
  lex_word_chars 'c' ['o', 'n', 's', 't'] rest (by decide) (by decide) (by decide) hr

theorem lex_kw_init (rest : List Char) (hr : headNot isWordChar rest = true) :
    lex ('i' :: 'n' :: 'i' :: 't' :: rest) =
      (lex rest).map (Tok.word "init" :: ·) :=
  lex_word_chars 'i' ['n', 'i', 't'] rest (by decide) (by decide) (by decide) hr

/-- Printing one well-formed instruction produces one line, and lexing that
line (with its trailing newline) produces the instruction's token sequence. -/
theorem instrLine (i : SInstr) (h : wfS i = true) :
    ∃ line : String, bodyLine (toInstr i) = some line ∧
      ∀ rest : List Char, lex (line.data ++ '\n' :: rest) =
        (lex rest).map fun ts => toksOfInstr i ++ ts := by
  have hsp : isWs ' ' = true := rfl
  have hnl : isWs '\n' = true := rfl
  cases i with
  | label n =>
    replace h : isIdent n = true := h
    refine ⟨n ++ ":", rfl, fun rest => ?_⟩
    simp only [String.data_append, show (":" : String).data = [':'] from rfl,
      List.append_assoc, List.cons_append, List.nil_append]
    rw [lex_word_str n _ (ident_wordish h) (by rfl), lex_colon, lex_ws hnl]
    cases lex rest <;> rfl
  | const d t v =>
    replace h : (isIdent d && isCname t) = true := h
    rw [Bool.and_eq_true] at h
    refine ⟨"  " ++ (d ++ ": " ++ t ++ " = const " ++ litToString v) ++ ";",
      rfl, fun rest => ?_⟩
    rw [show (" = const " : String) = " = " ++ "const" ++ " " from rfl]
    simp only [String.data_append, show ("  " : String).data = [' ', ' '] from rfl,
      show (": " : String).data = [':', ' '] from rfl,
      show (" = " : String).data = [' ', '=', ' '] from rfl,
      show (" " : String).data = [' '] from rfl,
      show (";" : String).data = [';'] from rfl,
      List.append_assoc, List.cons_append, List.nil_append]
    rw [lex_ws hsp, lex_ws hsp,
      lex_word_str d _ (ident_wordish h.1) (by rfl), lex_colon, lex_ws hsp,
      lex_word_str t _ (cname_wordish h.2) (by rfl), lex_ws hsp, lex_eq_tok,
      lex_ws hsp, lex_kw_const _ (by rfl), lex_ws hsp,
      lex_lit v, lex_ws hnl]
    cases lex rest <;> rfl
  | init d t v =>
    replace h : (isIdent d && isCname t) = true := h
    rw [Bool.and_eq_true] at h
    refine ⟨"  " ++ (d ++ ": " ++ t ++ " = init " ++ litToString v) ++ ";",
      rfl, fun rest => ?_⟩
    rw [show (" = init " : String) = " = " ++ "init" ++ " " from rfl]
    simp only [String.data_append, show ("  " : String).data = [' ', ' '] from rfl,
      show (": " : String).data = [':', ' '] from rfl,
      show (" = " : String).data = [' ', '=', ' '] from rfl,
      show (" " : String).data = [' '] from rfl,
      show (";" : String).data = [';'] from rfl,
      List.append_assoc, List.cons_append, List.nil_append]
    rw [lex_ws hsp, lex_ws hsp,
      lex_word_str d _ (ident_wordish h.1) (by rfl), lex_colon, lex_ws hsp,
      lex_word_str t _ (cname_wordish h.2) (by rfl), lex_ws hsp, lex_eq_tok,
      lex_ws hsp, lex_kw_init _ (by rfl), lex_ws hsp,
      lex_lit v, lex_ws hnl]
    cases lex rest <;> rfl
  | valueOp d t o a =>
    replace h : (isIdent d && isCname t && goodOpcode o && a.all isIdent &&
      !(a.isEmpty && (fusesWith "const" o || fusesWith "init" o))) = true := h
    simp only [Bool.and_eq_true] at h
    obtain ⟨⟨⟨⟨hd, ht⟩, hop⟩, hargs⟩, _⟩ := h
    obtain ⟨hcn, hc, hi⟩ := goodOpcode_spec hop
    refine ⟨"  " ++ (d ++ ": " ++ t ++ " = " ++ o ++ " " ++ joinSpace a) ++ ";",
      ?_, fun rest => ?_⟩
    · show (print_instr (JSONTransformer.vop d t o a)) = _
      unfold print_instr
      rw [instr_to_string_vop d t o a hc hi]
      rfl
    · simp only [String.data_append, show ("  " : String).data = [' ', ' '] from rfl,
        show (": " : String).data = [':', ' '] from rfl,
        show (" = " : String).data = [' ', '=', ' '] from rfl,
        show (" " : String).data = [' '] from rfl,
        show (";" : String).data = [';'] from rfl,
        List.append_assoc, List.cons_append, List.nil_append]
      rw [lex_ws hsp, lex_ws hsp,
        lex_word_str d _ (ident_wordish hd) (by rfl), lex_colon, lex_ws hsp,
        lex_word_str t _ (cname_wordish ht) (by rfl), lex_ws hsp, lex_eq_tok,
        lex_ws hsp, lex_word_str o _ (cname_wordish hcn) (by rfl), lex_ws hsp,
        lex_args a _ (all_ident_wordish hargs), lex_ws hnl]
      cases lex rest <;> simp [toksOfInstr]
  | arrayOp d t o a =>
    replace h : (isAident d && isCname t && goodOpcode o && a.all isAident &&
      !(a.isEmpty && isIdent d && (fusesWith "const" o || fusesWith "init" o))) = true := h
    simp only [Bool.and_eq_true] at h
    obtain ⟨⟨⟨⟨hd, ht⟩, hop⟩, hargs⟩, _⟩ := h
    obtain ⟨hcn, hc, hi⟩ := goodOpcode_spec hop
    refine ⟨"  " ++ (d ++ ": " ++ t ++ " = " ++ o ++ " " ++ joinSpace a) ++ ";",
      ?_, fun rest => ?_⟩
    · show (print_instr (JSONTransformer.aop d t o a)) = _
      unfold print_instr
      rw [show JSONTransformer.aop d t o a = JSONTransformer.vop d t o a from rfl,
        instr_to_string_vop d t o a hc hi]
      rfl
    · simp only [String.data_append, show ("  " : String).data = [' ', ' '] from rfl,
        show (": " : String).data = [':', ' '] from rfl,
        show (" = " : String).data = [' ', '=', ' '] from rfl,
        show (" " : String).data = [' '] from rfl,
        show (";" : String).data = [';'] from rfl,
        List.append_assoc, List.cons_append, List.nil_append]
      rw [lex_ws hsp, lex_ws hsp,
        lex_word_str d _ (aident_wordish hd) (by rfl), lex_colon, lex_ws hsp,
        lex_word_str t _ (cname_wordish ht) (by rfl), lex_ws hsp, lex_eq_tok,
        lex_ws hsp, lex_word_str o _ (cname_wordish hcn) (by rfl), lex_ws hsp,
        lex_args a _ (all_aident_wordish hargs), lex_ws hnl]
      cases lex rest <;> simp [toksOfInstr]
  | effectOp o a =>
    replace h : (goodOpcode o && a.all isIdent) = true := h
    rw [Bool.and_eq_true] at h
    obtain ⟨hcn, hc, hi⟩ := goodOpcode_spec h.1
    refine ⟨"  " ++ (o ++ " " ++ joinSpace a) ++ ";", ?_, fun rest => ?_⟩
    · show (print_instr (JSONTransformer.eop o a)) = _
      unfold print_instr
      rw [instr_to_string_eop o a hc hi]
      rfl
    · simp only [String.data_append, show ("  " : String).data = [' ', ' '] from rfl,
        show (" " : String).data = [' '] from rfl,
        show (";" : String).data = [';'] from rfl,
        List.append_assoc, List.cons_append, List.nil_append]
      rw [lex_ws hsp, lex_ws hsp,
        lex_word_str o _ (cname_wordish hcn) (by rfl), lex_ws hsp,
        lex_args a _ (all_ident_wordish h.2), lex_ws hnl]
      cases lex rest <;> simp [toksOfInstr]

/-! ## Parsing the token sequence of one instruction -/

theorem takeArgs_words (cls : String → Bool) :
    ∀ (a : List String) (r : List Tok), a.all cls = true →
      takeArgs cls (a.map Tok.word ++ Tok.semi :: r) = (a, Tok.semi :: r) := by
  intro a
  induction a with
  | nil => intro r _; rfl
  | cons w ws ih =>
    intro r hall
    rw [List.all_cons, Bool.and_eq_true] at hall
    show takeArgs cls (Tok.word w :: (ws.map Tok.word ++ Tok.semi :: r)) = _
    unfold takeArgs
    rw [if_pos hall.1, ih r hall.2]

theorem takeArgs_stop (cls : String → Bool) :
    ∀ (pre : List String) (bad : String) (post : List Tok),
      pre.all cls = true → cls bad = false →
      takeArgs cls (pre.map Tok.word ++ Tok.word bad :: post) =
        (pre, Tok.word bad :: post) := by
  intro pre
  induction pre with
  | nil =>
    intro bad post _ hbad
    show takeArgs cls (Tok.word bad :: post) = _
    unfold takeArgs
    rw [if_neg (by simp [hbad])]
  | cons w ws ih =>
    intro bad post hall hbad
    rw [List.all_cons, Bool.and_eq_true] at hall
    show takeArgs cls (Tok.word w :: (ws.map Tok.word ++ Tok.word bad :: post)) = _
    unfold takeArgs
    rw [if_pos hall.1, ih bad post hall.2 hbad]

theorem matchInit_wrongkw {o : String} (hne : ¬ o = "init") (d t : String)
    (rest : List Tok) :
    matchInit (Tok.word d :: Tok.colon :: Tok.word t :: Tok.eq :: Tok.word o :: rest) =
      none := by
  unfold matchInit
  dsimp only
  rw [if_neg (by simp [hne])]

theorem matchConst_wrongkw {o : String} (hne : ¬ o = "const") (d t : String)
    (rest : List Tok) :
    matchConst (Tok.word d :: Tok.colon :: Tok.word t :: Tok.eq :: Tok.word o :: rest) =
      none := by
  unfold matchConst
  dsimp only
  rw [if_neg (by simp [hne])]

theorem matchInit_success (d t : String) (v : Lit) (rest : List Tok)
    (hd : isIdent d = true) (ht : isCname t = true) :
    matchInit (Tok.word d :: Tok.colon :: Tok.word t :: Tok.eq :: Tok.word "init" ::
        tokOfLit v :: Tok.semi :: rest) =
      some (JSONTransformer.init d t v, rest) := by
  unfold matchInit
  dsimp only
  rw [if_pos (by simp [hd, ht])]
  simp [matchLit_tokOfLit v]

theorem matchConst_success (d t : String) (v : Lit) (rest : List Tok)
    (hd : isIdent d = true) (ht : isCname t = true) :
    matchConst (Tok.word d :: Tok.colon :: Tok.word t :: Tok.eq :: Tok.word "const" ::
        tokOfLit v :: Tok.semi :: rest) =
      some (JSONTransformer.const d t v, rest) := by
  unfold matchConst
  dsimp only
  rw [if_pos (by simp [hd, ht])]
  simp [matchLit_tokOfLit v]

theorem matchVop_success (d t o : String) (a : List String) (rest : List Tok)
    (hd : isIdent d = true) (ht : isCname t = true) (ho : isCname o = true)
    (ha : a.all isIdent = true) :
    matchVop (Tok.word d :: Tok.colon :: Tok.word t :: Tok.eq :: Tok.word o ::
        (a.map Tok.word ++ Tok.semi :: rest)) =
      some (JSONTransformer.vop d t o a, rest) := by
  unfold matchVop
  dsimp only
  rw [if_pos (by simp [hd, ht, ho]), takeArgs_words isIdent a rest ha]

theorem matchAop_success (d t o : String) (a : List String) (rest : List Tok)
    (hd : isAident d = true) (ht : isCname t = true) (ho : isCname o = true)
    (ha : a.all isAident = true) :
    matchAop (Tok.word d :: Tok.colon :: Tok.word t :: Tok.eq :: Tok.word o ::
        (a.map Tok.word ++ Tok.semi :: rest)) =
      some (JSONTransformer.aop d t o a, rest) := by
  unfold matchAop
  dsimp only
  rw [if_pos (by simp [hd, ht, ho]), takeArgs_words isAident a rest ha]

theorem matchEop_success (o : String) (a : List String) (rest : List Tok)
    (ho : isCname o = true) (ha : a.all isIdent = true) :
    matchEop (Tok.word o :: (a.map Tok.word ++ Tok.semi :: rest)) =
      some (JSONTransformer.eop o a, rest) := by
  unfold matchEop
  dsimp only
  rw [if_pos ho, takeArgs_words isIdent a rest ha]

theorem matchLabel_success (n : String) (rest : List Tok) (hn : isIdent n = true) :
    matchLabel (Tok.word n :: Tok.colon :: rest) =
      some (JSONTransformer.label n, rest) := by
  unfold matchLabel
  dsimp only
  rw [if_pos hn]

theorem matchEop_colon (n : String) (rest : List Tok) :
    matchEop (Tok.word n :: Tok.colon :: rest) = none := by
  unfold matchEop
  dsimp only
  by_cases h : isCname n = true
  · rw [if_pos h]
    rfl
  · rw [if_neg h]

theorem orElse_none {α : Type} (f : Unit → Option α) :
    Option.orElse none f = f () := rfl

theorem orElse_some {α : Type} (x : α) (f : Unit → Option α) :
    Option.orElse (some x) f = some x := rfl

/-- The continuation after a label's two tokens never starts with a word token
followed by `=`; this rules the dest-rules out at a label. -/
def labelFollowOK : List Tok → Bool
  | .word _ :: .eq :: _ => false
  | _ => true

theorem label_matchers_none (n : String) (rest : List Tok)
    (hok : labelFollowOK rest = true) :
    matchInit (Tok.word n :: Tok.colon :: rest) = none ∧
    matchConst (Tok.word n :: Tok.colon :: rest) = none ∧
    matchVop (Tok.word n :: Tok.colon :: rest) = none ∧
    matchAop (Tok.word n :: Tok.colon :: rest) = none := by
  cases rest with
  | nil => exact ⟨rfl, rfl, rfl, rfl⟩
  | cons t0 r0 =>
    cases t0 with
    | word x =>
      cases r0 with
      | nil => exact ⟨rfl, rfl, rfl, rfl⟩
      | cons t1 r1 =>
        cases t1 with
        | eq => exfalso; simp [labelFollowOK] at hok
        | lbrace => exact ⟨rfl, rfl, rfl, rfl⟩
        | rbrace => exact ⟨rfl, rfl, rfl, rfl⟩
        | colon => exact ⟨rfl, rfl, rfl, rfl⟩
        | semi => exact ⟨rfl, rfl, rfl, rfl⟩
        | word y => exact ⟨rfl, rfl, rfl, rfl⟩
        | int s => exact ⟨rfl, rfl, rfl, rfl⟩
    | lbrace => exact ⟨rfl, rfl, rfl, rfl⟩
    | rbrace => exact ⟨rfl, rfl, rfl, rfl⟩
    | colon => exact ⟨rfl, rfl, rfl, rfl⟩
    | eq => exact ⟨rfl, rfl, rfl, rfl⟩
    | semi => exact ⟨rfl, rfl, rfl, rfl⟩
    | int s => exact ⟨rfl, rfl, rfl, rfl⟩

theorem eop_matchers_none (o : String) (a : List String) (rest : List Tok) :
    matchInit (Tok.word o :: (a.map Tok.word ++ Tok.semi :: rest)) = none ∧
    matchConst (Tok.word o :: (a.map Tok.word ++ Tok.semi :: rest)) = none ∧
    matchVop (Tok.word o :: (a.map Tok.word ++ Tok.semi :: rest)) = none ∧
    matchAop (Tok.word o :: (a.map Tok.word ++ Tok.semi :: rest)) = none := by
  cases a with
  | nil => exact ⟨rfl, rfl, rfl, rfl⟩
  | cons w ws => exact ⟨rfl, rfl, rfl, rfl⟩

theorem dropWhile_head_not (p : String → Bool) :
    ∀ (l : List String) (bad : String) (post : List String),
      l.dropWhile p = bad :: post → p bad = false := by
  intro l
  induction l with
  | nil => intro bad post h; simp at h
  | cons x xs ih =>
    intro bad post h
    rw [List.dropWhile_cons] at h
    by_cases hx : p x = true
    · rw [if_pos hx] at h
      exact ih bad post h
    · rw [if_neg hx] at h
      cases h
      exact Bool.not_eq_true _ ▸ (by revert hx; cases p x <;> simp)

theorem takeWhile_all (p : String → Bool) :
    ∀ l : List String, (l.takeWhile p).all p = true := by
  intro l
  induction l with
  | nil => rfl
  | cons x xs ih =>
    rw [List.takeWhile_cons]
    by_cases hx : p x = true
    · simp [hx, ih]
    · simp [hx]

theorem dropWhile_nil_all (p : String → Bool) :
    ∀ l : List String, l.dropWhile p = [] → l.all p = true := by
  intro l
  induction l with
  | nil => intro _; rfl
  | cons x xs ih =>
    intro h
    rw [List.dropWhile_cons] at h
    by_cases hx : p x = true
    · rw [if_pos hx] at h
      simp [hx, ih h]
    · rw [if_neg hx] at h
      simp at h

theorem matchVop_aop_fail (d t o : String) (a : List String) (rest : List Tok)
    (ht : isCname t = true) (ho : isCname o = true)
    (hna : ¬ (isIdent d && a.all isIdent) = true) :
    matchVop (Tok.word d :: Tok.colon :: Tok.word t :: Tok.eq :: Tok.word o ::
      (a.map Tok.word ++ Tok.semi :: rest)) = none := by
  unfold matchVop
  dsimp only
  by_cases hd : isIdent d = true
  · have hargs : ¬ a.all isIdent = true := fun hall => hna (by simp [hd, hall])
    rw [if_pos (by simp [hd, ht, ho])]
    cases hdrop : a.dropWhile isIdent with
    | nil => exact absurd (dropWhile_nil_all isIdent a hdrop) hargs
    | cons bad post =>
      have hbad : isIdent bad = false := dropWhile_head_not isIdent a bad post hdrop
      have hsplit : a.takeWhile isIdent ++ bad :: post = a := by
        rw [← hdrop, List.takeWhile_append_dropWhile]
      rw [← hsplit, List.map_append, List.map_cons, List.append_assoc,
        List.cons_append, takeArgs_stop isIdent _ bad _ (takeWhile_all isIdent a) hbad]
  · rw [if_neg (by simp [hd])]

/-- Parsing the token sequence of one printed well-formed instruction yields
exactly its lowered dictionary and consumes exactly its tokens. -/
theorem parseInstr_toks (i : SInstr) (h : wfS i = true) (rest : List Tok)
    (hok : labelFollowOK rest = true) :
    parseInstr (toksOfInstr i ++ rest) = some (toInstr i, rest) := by
  cases i with
  | label n =>
    replace h : isIdent n = true := h
    obtain ⟨m1, m2, m3, m4⟩ := label_matchers_none n rest hok
    show parseInstr (Tok.word n :: Tok.colon :: rest) = _
    unfold parseInstr
    rw [m1, orElse_none, m2, orElse_none, m3, orElse_none, m4, orElse_none,
      matchEop_colon, orElse_none, matchLabel_success n rest h]
    rfl
  | const d t v =>
    replace h : (isIdent d && isCname t) = true := h
    rw [Bool.and_eq_true] at h
    show parseInstr (Tok.word d :: Tok.colon :: Tok.word t :: Tok.eq ::
      Tok.word "const" :: tokOfLit v :: Tok.semi :: rest) = _
    unfold parseInstr
    rw [matchInit_wrongkw (by decide) d t _, orElse_none,
      matchConst_success d t v rest h.1 h.2, orElse_some]
    rfl
  | init d t v =>
    replace h : (isIdent d && isCname t) = true := h
    rw [Bool.and_eq_true] at h
    show parseInstr (Tok.word d :: Tok.colon :: Tok.word t :: Tok.eq ::
      Tok.word "init" :: tokOfLit v :: Tok.semi :: rest) = _
    unfold parseInstr
    rw [matchInit_success d t v rest h.1 h.2, orElse_some]
    rfl
  | valueOp d t o a =>
    replace h : (isIdent d && isCname t && goodOpcode o && a.all isIdent &&
      !(a.isEmpty && (fusesWith "const" o || fusesWith "init" o))) = true := h
    simp only [Bool.and_eq_true] at h
    obtain ⟨⟨⟨⟨hd, ht⟩, hop⟩, hargs⟩, _⟩ := h
    obtain ⟨hcn, hc, hi⟩ := goodOpcode_spec hop
    have hshape : toksOfInstr (SInstr.valueOp d t o a) ++ rest =
        Tok.word d :: Tok.colon :: Tok.word t :: Tok.eq :: Tok.word o ::
          (a.map Tok.word ++ Tok.semi :: rest) := by
      simp [toksOfInstr, List.append_assoc]
    rw [hshape]
    unfold parseInstr
    rw [matchInit_wrongkw hi d t _, orElse_none, matchConst_wrongkw hc d t _,
      orElse_none, matchVop_success d t o a rest hd ht hcn hargs, orElse_some]
    rfl
  | arrayOp d t o a =>
    replace h : (isAident d && isCname t && goodOpcode o && a.all isAident &&
      !(a.isEmpty && isIdent d && (fusesWith "const" o || fusesWith "init" o))) = true := h
    simp only [Bool.and_eq_true] at h
    obtain ⟨⟨⟨⟨hd, ht⟩, hop⟩, hargs⟩, _⟩ := h
    obtain ⟨hcn, hc, hi⟩ := goodOpcode_spec hop
    have hshape : toksOfInstr (SInstr.arrayOp d t o a) ++ rest =
        Tok.word d :: Tok.colon :: Tok.word t :: Tok.eq :: Tok.word o ::
          (a.map Tok.word ++ Tok.semi :: rest) := by
      simp [toksOfInstr, List.append_assoc]
    rw [hshape]
    unfold parseInstr
    rw [matchInit_wrongkw hi d t _, orElse_none, matchConst_wrongkw hc d t _,
      orElse_none]
    by_cases hall : (isIdent d && a.all isIdent) = true
    · rw [Bool.and_eq_true] at hall
      rw [matchVop_success d t o a rest hall.1 ht hcn hall.2, orElse_some]
      rfl
    · rw [matchVop_aop_fail d t o a rest ht hcn hall, orElse_none,
        matchAop_success d t o a rest hd ht hcn hargs, orElse_some]
      rfl
  | effectOp o a =>
    replace h : (goodOpcode o && a.all isIdent) = true := h
    rw [Bool.and_eq_true] at h
    obtain ⟨hcn, _, _⟩ := goodOpcode_spec h.1
    obtain ⟨m1, m2, m3, m4⟩ := eop_matchers_none o a rest
    have hshape : toksOfInstr (SInstr.effectOp o a) ++ rest =
        Tok.word o :: (a.map Tok.word ++ Tok.semi :: rest) := by
      simp [toksOfInstr, List.append_assoc]
    rw [hshape]
    unfold parseInstr
    rw [m1, orElse_none, m2, orElse_none, m3, orElse_none, m4, orElse_none,
      matchEop_success o a rest hcn h.2, orElse_some]
    rfl

/-! ## Parsing instruction lists, functions and programs -/

theorem labelFollowOK_toks (l : List SInstr) (rest : List Tok) :
    labelFollowOK (toksOfInstrs l ++ Tok.rbrace :: rest) = true := by
  cases l with
  | nil => rfl
  | cons i l2 =>
    show labelFollowOK ((toksOfInstr i ++ toksOfInstrs l2) ++ Tok.rbrace :: rest) = true
    cases i with
    | label n => rfl
    | const d t v => rfl
    | init d t v => rfl
    | valueOp d t o a => rfl
    | arrayOp d t o a => rfl
    | effectOp o a => cases a with | nil => rfl | cons w ws => rfl

theorem toksOfInstr_head (i : SInstr) :
    ∃ w tail, toksOfInstr i = Tok.word w :: tail := by
  cases i with
  | label n => exact ⟨n, _, rfl⟩
  | const d t v => exact ⟨d, _, rfl⟩
  | init d t v => exact ⟨d, _, rfl⟩
  | valueOp d t o a => exact ⟨d, _, rfl⟩
  | arrayOp d t o a => exact ⟨d, _, rfl⟩
  | effectOp o a => exact ⟨o, _, rfl⟩

theorem parseInstrs_toks : ∀ (l : List SInstr) (fuel : Nat) (rest : List Tok),
    (∀ i ∈ l, wfS i = true) → l.length < fuel →
    parseInstrs fuel (toksOfInstrs l ++ Tok.rbrace :: rest) =
      some (l.map toInstr, rest) := by
  intro l
  induction l with
  | nil =>
    intro fuel rest _ _
    show parseInstrs fuel (Tok.rbrace :: rest) = _
    cases fuel <;> rfl
  | cons i l2 ih =>
    intro fuel rest hwf hf
    cases fuel with
    | zero => simp at hf
    | succ f =>
      have hwf1 : wfS i = true := hwf i (by simp)
      have hok := labelFollowOK_toks l2 rest
      obtain ⟨w, tail, hw⟩ := toksOfInstr_head i
      have hpi := parseInstr_toks i hwf1 (toksOfInstrs l2 ++ Tok.rbrace :: rest) hok
      show parseInstrs (f + 1)
        ((toksOfInstr i ++ toksOfInstrs l2) ++ Tok.rbrace :: rest) = _
      rw [List.append_assoc, hw, List.cons_append]
      have hunf : parseInstrs (f + 1) (Tok.word w :: (tail ++
          (toksOfInstrs l2 ++ Tok.rbrace :: rest))) =
          (parseInstr (Tok.word w :: (tail ++
            (toksOfInstrs l2 ++ Tok.rbrace :: rest)))).bind fun ir =>
            (parseInstrs f ir.2).map fun isr => (ir.1 :: isr.1, isr.2) := rfl
      rw [hunf, show Tok.word w :: (tail ++ (toksOfInstrs l2 ++ Tok.rbrace :: rest)) =
        (Tok.word w :: tail) ++ (toksOfInstrs l2 ++ Tok.rbrace :: rest) from rfl,
        ← hw, hpi]
      have hins : l2.length < f := by
        simp only [List.length_cons] at hf
        omega
      rw [show ((some (toInstr i, toksOfInstrs l2 ++ Tok.rbrace :: rest)).bind
          fun ir => (parseInstrs f ir.2).map fun isr => (ir.1 :: isr.1, isr.2)) =
        (parseInstrs f (toksOfInstrs l2 ++ Tok.rbrace :: rest)).map
          fun isr => (toInstr i :: isr.1, isr.2) from rfl,
        ih f rest (fun j hj => hwf j (by simp [hj])) hins]
      rfl

/-- Fuel needed by `parseFuncs`: one unit per function plus one per
instruction. -/
def funcsSize (l : List SFunc) : Nat :=
  l.foldr (fun f a => 1 + f.instrs.length + a) 0

theorem parseFuncs_toks : ∀ (l : List SFunc) (fuel : Nat),
    (∀ f ∈ l, wfSFunc f = true) → funcsSize l < fuel →
    parseFuncs fuel (toksOfFuncs l) = some (l.map toFunc) := by
  intro l
  induction l with
  | nil =>
    intro fuel _ _
    cases fuel <;> rfl
  | cons f fs ih =>
    intro fuel hwf hfuel
    cases fuel with
    | zero => simp [funcsSize] at hfuel
    | succ F =>
      have hsz : funcsSize (f :: fs) = 1 + f.instrs.length + funcsSize fs := rfl
      have hwff := hwf f (by simp)
      rw [wfSFunc, Bool.and_eq_true] at hwff
      have hwfi : ∀ i ∈ f.instrs, wfS i = true := by
        have := hwff.2
        rw [List.all_eq_true] at this
        exact this
      have hshape : toksOfFuncs (f :: fs) =
          Tok.word f.name :: Tok.lbrace ::
            (toksOfInstrs f.instrs ++ Tok.rbrace :: toksOfFuncs fs) := by
        show (Tok.word f.name :: Tok.lbrace ::
          (toksOfInstrs f.instrs ++ [Tok.rbrace])) ++ toksOfFuncs fs = _
        simp [List.append_assoc]
      rw [hshape]
      have hunf : parseFuncs (F + 1) (Tok.word f.name :: Tok.lbrace ::
          (toksOfInstrs f.instrs ++ Tok.rbrace :: toksOfFuncs fs)) =
          if isCname f.name = true then
            (parseInstrs F (toksOfInstrs f.instrs ++ Tok.rbrace ::
                toksOfFuncs fs)).bind fun isr =>
              (parseFuncs F isr.2).map fun gs =>
                JSONTransformer.func f.name isr.1 :: gs
          else none := rfl
      rw [hunf, if_pos hwff.1,
        parseInstrs_toks f.instrs F (toksOfFuncs fs) hwfi (by omega),
        show ((some (f.instrs.map toInstr, toksOfFuncs fs)).bind fun isr =>
          (parseFuncs F isr.2).map fun gs =>
            JSONTransformer.func f.name isr.1 :: gs) =
          (parseFuncs F (toksOfFuncs fs)).map fun gs =>
            JSONTransformer.func f.name (f.instrs.map toInstr) :: gs from rfl,
        ih F (fun g hg => hwf g (by simp [hg])) (by omega)]
      rfl

/-! ## Printing and relexing whole functions and programs -/

theorem linesText_data_append (xs ys : List String) :
    (linesText (xs ++ ys)).data = (linesText xs).data ++ (linesText ys).data := by
  induction xs with
  | nil => rfl
  | cons x xs ih =>
    show ((x ++ "\n") ++ linesText (xs ++ ys)).data =
      ((x ++ "\n") ++ linesText xs).data ++ (linesText ys).data
    simp [String.data_append, ih, List.append_assoc]

theorem bodyLines (l : List SInstr) (h : ∀ i ∈ l, wfS i = true) :
    ∃ body : List String, optionMapM bodyLine (l.map toInstr) = some body ∧
      ∀ rest : List Char, lex ((linesText body).data ++ rest) =
        (lex rest).map fun ts => toksOfInstrs l ++ ts := by
  induction l with
  | nil =>
    refine ⟨[], rfl, fun rest => ?_⟩
    show lex rest = (lex rest).map fun ts => toksOfInstrs [] ++ ts
    cases lex rest <;> rfl
  | cons i l2 ih =>
    obtain ⟨line, hline, hlex⟩ := instrLine i (h i (by simp))
    obtain ⟨body2, hb2, hlex2⟩ := ih fun j hj => h j (by simp [hj])
    refine ⟨line :: body2, ?_, fun rest => ?_⟩
    · show optionMapM bodyLine (toInstr i :: l2.map toInstr) = _
      unfold optionMapM
      rw [hline, hb2]
      rfl
    · show lex ((linesText (line :: body2)).data ++ rest) = _
      rw [show linesText (line :: body2) = (line ++ "\n") ++ linesText body2 from rfl,
        String.data_append, String.data_append,
        show ("\n" : String).data = ['\n'] from rfl]
      rw [List.append_assoc, List.append_assoc, List.cons_append, List.nil_append,
        hlex ((linesText body2).data ++ rest), hlex2 rest]
      cases lex rest <;> simp [toksOfInstrs, List.append_assoc]

theorem funcLines (f : SFunc) (h : wfSFunc f = true) :
    ∃ lines : List String, print_func (toFunc f) = some lines ∧
      ∀ rest : List Char, lex ((linesText lines).data ++ rest) =
        (lex rest).map fun ts => toksOfFunc f ++ ts := by
  rw [wfSFunc, Bool.and_eq_true] at h
  have hwfi : ∀ i ∈ f.instrs, wfS i = true := by
    have := h.2
    rw [List.all_eq_true] at this
    exact this
  obtain ⟨body, hb, hlexb⟩ := bodyLines f.instrs hwfi
  refine ⟨(f.name ++ " \x7b") :: body ++ ["\x7d"], ?_, fun rest => ?_⟩
  · unfold print_func
    show (optionMapM bodyLine (f.instrs.map toInstr)).map _ = _
    rw [hb]
    rfl
  · show lex ((((f.name ++ " \x7b") ++ "\n") ++ linesText (body ++ ["\x7d"])).data ++ rest) = _
    rw [String.data_append, String.data_append, String.data_append,
      linesText_data_append,
      show (" \x7b" : String).data = [' ', '{'] from rfl,
      show ("\n" : String).data = ['\n'] from rfl,
      show (linesText ["\x7d"]).data = ['}', '\n'] from rfl]
    simp only [List.append_assoc, List.cons_append, List.nil_append]
    rw [lex_word_str f.name _ (cname_wordish h.1) (by rfl),
      lex_ws (show isWs ' ' = true from rfl), lex_lbrace,
      lex_ws (show isWs '\n' = true from rfl),
      hlexb ('}' :: '\n' :: rest), lex_rbrace,
      lex_ws (show isWs '\n' = true from rfl)]
    cases lex rest <;> simp [toksOfFunc, List.append_assoc]

theorem progLines (l : List SFunc) (h : ∀ f ∈ l, wfSFunc f = true) :
    ∃ parts : List (List String), optionMapM print_func (l.map toFunc) = some parts ∧
      ∀ rest : List Char, lex ((linesText parts.flatten).data ++ rest) =
        (lex rest).map fun ts => toksOfFuncs l ++ ts := by
  induction l with
  | nil =>
    refine ⟨[], rfl, fun rest => ?_⟩
    show lex rest = (lex rest).map fun ts => toksOfFuncs [] ++ ts
    cases lex rest <;> rfl
  | cons f fs ih =>
    obtain ⟨flines, hf, hlexf⟩ := funcLines f (h f (by simp))
    obtain ⟨parts2, hp2, hlex2⟩ := ih fun g hg => h g (by simp [hg])
    refine ⟨flines :: parts2, ?_, fun rest => ?_⟩
    · show optionMapM print_func (toFunc f :: fs.map toFunc) = _
      unfold optionMapM
      rw [hf, hp2]
      rfl
    · show lex ((linesText ((flines :: parts2).flatten)).data ++ rest) = _
      rw [show ((flines :: parts2).flatten) = flines ++ parts2.flatten from rfl,
        linesText_data_append, List.append_assoc,
        hlexf ((linesText parts2.flatten).data ++ rest), hlex2 rest]
      cases lex rest <;> simp [toksOfFuncs, List.append_assoc]

theorem toksOfInstr_length_pos (i : SInstr) : 1 ≤ (toksOfInstr i).length := by
  cases i <;> simp [toksOfInstr]

theorem instrsLen_le (l : List SInstr) : l.length ≤ (toksOfInstrs l).length := by
  induction l with
  | nil => simp [toksOfInstrs]
  | cons i l2 ih =>
    show (i :: l2).length ≤ (toksOfInstr i ++ toksOfInstrs l2).length
    rw [List.length_append, List.length_cons]
    have := toksOfInstr_length_pos i
    omega

theorem funcsSize_le (l : List SFunc) : funcsSize l ≤ (toksOfFuncs l).length := by
  induction l with
  | nil => simp [funcsSize, toksOfFuncs]
  | cons f fs ih =>
    show 1 + f.instrs.length + funcsSize fs ≤
      (Tok.word f.name :: Tok.lbrace ::
        (toksOfInstrs f.instrs ++ [Tok.rbrace]) ++ toksOfFuncs fs).length
    simp only [List.length_cons, List.length_append, List.length_singleton,
      List.cons_append]
    have := instrsLen_le f.instrs
    omega

/-- The struct-to-text-to-struct round trip for lexically well-formed
programs: printing succeeds, and parsing and lowering the printed text
restores the very same structured representation. -/
theorem roundTrip (p : SProg) (h : wfSProg p = true) :
    ∃ t : String, progText (toProg p) = some t ∧ parse_bril t = some (toProg p) := by
  have hwf : ∀ f ∈ p.functions, wfSFunc f = true := by
    have := h
    rw [wfSProg, List.all_eq_true] at this
    exact this
  obtain ⟨parts, hparts, hlex⟩ := progLines p.functions hwf
  refine ⟨linesText parts.flatten, ?_, ?_⟩
  · unfold progText print_prog
    show ((optionMapM print_func (p.functions.map toFunc)).map List.flatten).map linesText = _
    rw [hparts]
    rfl
  · unfold parse_bril
    have hlex0 : lex (linesText parts.flatten).data =
        some (toksOfFuncs p.functions) := by
      have h1 := hlex []
      rw [List.append_nil] at h1
      rw [h1]
      show some (toksOfFuncs p.functions ++ []) = _
      rw [List.append_nil]
    rw [hlex0]
    show (parseFuncs ((toksOfFuncs p.functions).length + 1)
      (toksOfFuncs p.functions)).map JSONTransformer.start = _
    rw [parseFuncs_toks p.functions _ hwf
      (Nat.lt_succ_of_le (funcsSize_le p.functions))]
    rfl

/-! ## Bracket facts and printer indexing -/

theorem identChar_not_bracket {c : Char} (h : isIdentChar c = true) :
    ¬ (c = '[' ∨ c = ']') := by
  rintro (e | e) <;> (subst e; exact absurd h (by decide))

theorem ident_no_bracket {w : String} (h : isIdent w = true) :
    hasBracket w = false := by
  unfold isIdent strClass at h
  unfold hasBracket
  cases hd : w.data with
  | nil => rfl
  | cons c cs =>
    rw [hd] at h
    replace h : (isIdentStart c && cs.all isIdentChar) = true := h
    rw [Bool.and_eq_true, List.all_eq_true] at h
    cases hany : (c :: cs).any (fun x => x = '[' || x = ']') with
    | false => rfl
    | true =>
      exfalso
      rw [List.any_eq_true] at hany
      obtain ⟨x, hx, hbr⟩ := hany
      simp only [Bool.or_eq_true, decide_eq_true_eq] at hbr
      rcases List.mem_cons.mp hx with rfl | hx2
      · exact identChar_not_bracket (by simp [isIdentChar, h.1]) hbr
      · exact identChar_not_bracket (h.2 x hx2) hbr

theorem optionMapM_spec {α β : Type} (f : α → Option β) :
    ∀ (l : List α) (bs : List β), optionMapM f l = some bs →
      bs.length = l.length ∧
      ∀ k (hk : k < l.length) (hb : k < bs.length),
        f (l.get ⟨k, hk⟩) = some (bs.get ⟨k, hb⟩) := by
  intro l
  induction l with
  | nil =>
    intro bs h
    have h2 : some ([] : List β) = some bs := h
    have hb : bs = [] := (Option.some.inj h2).symm
    subst hb
    exact ⟨rfl, fun k hk _ => absurd hk (by simp)⟩
  | cons a l ih =>
    intro bs h
    unfold optionMapM at h
    cases hfa : f a with
    | none =>
      rw [hfa] at h
      cases h
    | some b =>
      rw [hfa] at h
      cases hrec : optionMapM f l with
      | none =>
        rw [hrec] at h
        cases h
      | some bs2 =>
        rw [hrec] at h
        replace h : some (b :: bs2) = some bs := h
        have hb : bs = b :: bs2 := (Option.some.inj h).symm
        subst hb
        obtain ⟨hlen, hidx⟩ := ih bs2 hrec
        refine ⟨by simp [hlen], ?_⟩
        intro k hk hb2
        cases k with
        | zero => simpa using hfa
        | succ k2 =>
          have hk2 : k2 < l.length := by simpa using hk
          have hb3 : k2 < bs2.length := by simpa using hb2
          simpa using hidx k2 hk2 hb3

/-! ## The claims -/

/-- A sample well-formed program exercising every instruction variant. -/
def sampleProg : SProg := ⟨[⟨"main", [
  .const "v" "int" (.int 4),
  .init "b" "bool" (.bool true),
  .valueOp "x" "int" "id" ["v"],
  .arrayOp "a[0]" "int" "v2a" ["x"],
  .label "loop",
  .effectOp "jmp" ["loop"]]⟩]⟩

/-- The text the printer produces for `sampleProg`. -/
def sampleText : String :=
  "main \x7b\n  v: int = const 4;\n  b: bool = init true;\n  x: int = id v;\n  a[0]: int = v2a x;\nloop:\n  jmp loop;\n\x7d\n"

/-- A program constructible per the data model: a ValueOp whose free-form
opcode is the string `const` (so its record has `args` but no `value`). -/
def c1Bad : Program :=
  JSONTransformer.start [JSONTransformer.func "main"
    [JSONTransformer.vop "x" "int" "const" ["v"]]]

/-- C1 (counterexample): the struct-to-text-to-struct round trip fails as
stated.  `c1Bad` is constructible per the data model (a ValueOp with the
free-form opcode `const`), but the pretty-printer crashes on it (reading the
absent `value` key), so no printed text exists and no parse of the printed
text can restore the original. -/
theorem C1_counterexample :
    progText c1Bad = none ∧ (progText c1Bad).bind parse_bril ≠ some c1Bad := by
  decide

/-- C1 (amended): for every data-model program whose components are lexically
well-formed for the grammar (names and types are CNAMEs, identifiers in their
declared class, opcodes CNAMEs distinct from the `const`/`init` keywords, and
no empty-operand keyword fusion), printing succeeds and parsing and lowering
the printed text yields a structured representation equal to the original,
field-for-field and order-preserved. -/
theorem C1_roundtrip_struct_text_struct (p : SProg) (h : wfSProg p = true) :
    ∃ t : String, progText (toProg p) = some t ∧ parse_bril t = some (toProg p) :=
  roundTrip p h

/-- C1 (witness): the round trip at a concrete program using all variants. -/
theorem C1_witness :
    wfSProg sampleProg = true ∧
    ∃ t : String, progText (toProg sampleProg) = some t ∧
      parse_bril t = some (toProg sampleProg) :=
  ⟨by decide, C1_roundtrip_struct_text_struct sampleProg (by decide)⟩

/-- C2 (counterexample): the text-to-struct-to-text round trip fails as
stated.  The text below is grammar-valid, comment-free, two-space-indented
and single-space-separated (its label line is indented like every other
line), but printing its lowered structured representation moves the label to
column zero, so the original text is not reproduced. -/
theorem C2_counterexample :
    (parse_bril "main \x7b\n  loop:\n  jmp loop;\n\x7d\n").bind progText =
      some "main \x7b\nloop:\n  jmp loop;\n\x7d\n" ∧
    (parse_bril "main \x7b\n  loop:\n  jmp loop;\n\x7d\n").bind progText ≠
      some "main \x7b\n  loop:\n  jmp loop;\n\x7d\n" := by
  decide

/-- C2 (amended): for every text in the canonical form the printer actually
produces (instructions indented two spaces, labels at column zero, fields
single-space-separated) — i.e. every successful printer output of a lexically
well-formed program — parsing, lowering and printing again reproduces the
text exactly. -/
theorem C2_roundtrip_text_struct_text (t : String) (p : SProg)
    (hw : wfSProg p = true) (ht : progText (toProg p) = some t) :
    (parse_bril t).bind progText = some t := by
  obtain ⟨t2, ht2, hp⟩ := roundTrip p hw
  rw [ht] at ht2
  have he : t = t2 := Option.some.inj ht2
  subst he
  rw [hp]
  exact ht

/-- C2 (witness): the text round trip at the printed form of `sampleProg`. -/
theorem C2_witness :
    wfSProg sampleProg = true ∧
    progText (toProg sampleProg) = some sampleText ∧
    (parse_bril sampleText).bind progText = some sampleText :=
  ⟨by decide, by decide,
    C2_roundtrip_text_struct_text sampleText sampleProg (by decide) (by decide)⟩

/-- C3: an instruction token sequence of the shape
`IDENT : type = init <lit> ;` always parses and lowers to an Init record
(the priority order tries `init` first), never to a ValueOp record — Init
carries a `value` and no `args`, which no `vop` lowering can produce. -/
theorem C3_init_priority (d t : String) (lt : Tok) (rest : List Tok)
    (hd : isIdent d = true) (ht : isCname t = true)
    (hlt : (∃ s, lt = Tok.int s) ∨ lt = Tok.word "true" ∨ lt = Tok.word "false") :
    ∃ v : Lit, parseInstr (Tok.word d :: Tok.colon :: Tok.word t :: Tok.eq ::
        Tok.word "init" :: lt :: Tok.semi :: rest) =
      some (JSONTransformer.init d t v, rest) ∧
      ∀ d2 t2 o2 a2, JSONTransformer.init d t v ≠ JSONTransformer.vop d2 t2 o2 a2 := by
  have hv : ∃ v : Lit, matchLit lt = some v := by
    rcases hlt with ⟨s, rfl⟩ | rfl | rfl
    · exact ⟨.int (JSONTransformer.int s), rfl⟩
    · exact ⟨.bool true, rfl⟩
    · exact ⟨.bool false, rfl⟩
  obtain ⟨v, hv⟩ := hv
  refine ⟨v, ?_, ?_⟩
  · have hmi : matchInit (Tok.word d :: Tok.colon :: Tok.word t :: Tok.eq ::
        Tok.word "init" :: lt :: Tok.semi :: rest) =
        some (JSONTransformer.init d t v, rest) := by
      unfold matchInit
      dsimp only
      rw [if_pos (by simp [hd, ht]), hv]
      rfl
    unfold parseInstr
    rw [hmi, orElse_some]
  · intro d2 t2 o2 a2 heq
    have := congrArg Instr.value heq
    simp [JSONTransformer.init, JSONTransformer.vop] at this

/-- C3 (witness): `x: int = init 4;` parses to an Init and not a ValueOp. -/
theorem C3_witness :
    isIdent "x" = true ∧ isCname "int" = true ∧
    ∃ v : Lit, parseInstr [Tok.word "x", Tok.colon, Tok.word "int", Tok.eq,
        Tok.word "init", Tok.int "4", Tok.semi] =
      some (JSONTransformer.init "x" "int" v, []) ∧
      ∀ d2 t2 o2 a2,
        JSONTransformer.init "x" "int" v ≠ JSONTransformer.vop d2 t2 o2 a2 :=
  ⟨by decide, by decide,
    C3_init_priority "x" "int" (Tok.int "4") [] (by decide) (by decide)
      (Or.inl ⟨"4", rfl⟩)⟩

/-- The function used to exhibit the printer's layout. -/
def c4Func : Func :=
  JSONTransformer.func "main"
    [JSONTransformer.eop "print" ["x"], JSONTransformer.label "loop"]

/-- C4 (counterexample): the claimed layout is wrong about labels.  A label
prints as `<name>:` at column zero — `print_label` emits no indentation —
while the claim says every label line is indented by exactly two spaces. -/
theorem C4_counterexample :
    print_func (JSONTransformer.func "main" [JSONTransformer.label "loop"]) =
      some ["main \x7b", "loop:", "\x7d"] ∧
    ("loop:").take 2 ≠ "  " := by
  decide

/-- C4 (amended): the printer renders a function as `<name> {` on its own
line, then one line per instruction or label in order — an instruction line
is exactly two spaces, the rendered instruction and a trailing `;`; a label
line is `<name>:` with no indentation — and a closing `}` on its own line. -/
theorem C4_print_func_layout (f : Func) (lines : List String)
    (h : print_func f = some lines) :
    ∃ body : List String, lines = (f.name ++ " \x7b") :: body ++ ["\x7d"] ∧
      body.length = f.instrs.length ∧
      ∀ k (hk : k < f.instrs.length) (hb : k < body.length),
        (∀ l, (f.instrs.get ⟨k, hk⟩).label = some l →
          body.get ⟨k, hb⟩ = l ++ ":") ∧
        ((f.instrs.get ⟨k, hk⟩).label = none →
          ∃ s, instr_to_string (f.instrs.get ⟨k, hk⟩) = some s ∧
            body.get ⟨k, hb⟩ = "  " ++ s ++ ";") := by
  unfold print_func at h
  cases hm : optionMapM bodyLine f.instrs with
  | none =>
    rw [hm] at h
    cases h
  | some body =>
    rw [hm] at h
    replace h : some ((f.name ++ " \x7b") :: body ++ ["\x7d"]) = some lines := h
    have hl := (Option.some.inj h).symm
    subst hl
    obtain ⟨hlen, hidx⟩ := optionMapM_spec bodyLine f.instrs body hm
    refine ⟨body, rfl, hlen, fun k hk hb => ?_⟩
    have hbk := hidx k hk hb
    constructor
    · intro l hl
      unfold bodyLine print_label at hbk
      rw [hl] at hbk
      replace hbk : some (l ++ ":") = some (body.get ⟨k, hb⟩) := hbk
      exact (Option.some.inj hbk).symm
    · intro hl
      unfold bodyLine at hbk
      rw [hl] at hbk
      replace hbk : print_instr (f.instrs.get ⟨k, hk⟩) = some (body.get ⟨k, hb⟩) :=
        hbk
      unfold print_instr at hbk
      cases hs : instr_to_string (f.instrs.get ⟨k, hk⟩) with
      | none =>
        rw [hs] at hbk
        cases hbk
      | some s =>
        rw [hs] at hbk
        replace hbk : some ("  " ++ s ++ ";") = some (body.get ⟨k, hb⟩) := hbk
        exact ⟨s, rfl, (Option.some.inj hbk).symm⟩

/-- C4 (witness): the layout at a function with one instruction and one
label. -/
theorem C4_witness :
    print_func c4Func = some ["main \x7b", "  print x;", "loop:", "\x7d"] ∧
    ∃ body : List String,
      ["main \x7b", "  print x;", "loop:", "\x7d"] =
        (c4Func.name ++ " \x7b") :: body ++ ["\x7d"] ∧
      body.length = c4Func.instrs.length ∧
      ∀ k (hk : k < c4Func.instrs.length) (hb : k < body.length),
        (∀ l, (c4Func.instrs.get ⟨k, hk⟩).label = some l →
          body.get ⟨k, hb⟩ = l ++ ":") ∧
        ((c4Func.instrs.get ⟨k, hk⟩).label = none →
          ∃ s, instr_to_string (c4Func.instrs.get ⟨k, hk⟩) = some s ∧
            body.get ⟨k, hb⟩ = "  " ++ s ++ ";") :=
  ⟨by decide, C4_print_func_layout c4Func _ (by decide)⟩

/-- C5: a label `loop:` followed by the EffectOp `jmp loop;` round-trips
unchanged — parsing and lowering yields the Label and EffectOp records, and
printing those records reproduces the same text. -/
theorem C5_label_jmp_roundtrip :
    parse_bril "main \x7b\nloop:\n  jmp loop;\n\x7d\n" =
      some (JSONTransformer.start [JSONTransformer.func "main"
        [JSONTransformer.label "loop", JSONTransformer.eop "jmp" ["loop"]]]) ∧
    progText (JSONTransformer.start [JSONTransformer.func "main"
        [JSONTransformer.label "loop", JSONTransformer.eop "jmp" ["loop"]]]) =
      some "main \x7b\nloop:\n  jmp loop;\n\x7d\n" := by
  decide

/-- C6 (counterexample): the vice-versa direction is false: a scalar-class
identifier is accepted, not rejected, where the array-element class is
required.  `y` contains no bracket, yet `x[1]: int = a2v y;` parses, with `y`
as the AIDENT operand. -/
theorem C6_counterexample :
    isIdent "y" = true ∧ hasBracket "y" = false ∧
    parse_bril "main \x7b\nx[1]: int = a2v y;\n\x7d\n" =
      some (JSONTransformer.start [JSONTransformer.func "main"
        [JSONTransformer.aop "x[1]" "int" "a2v" ["y"]]]) := by
  decide

/-- C6 (amended): a bracket-containing identifier is rejected wherever the
grammar requires the scalar class (it is no `IDENT`, so label names,
`const`-rule dests, `vop` dests and `eop` operands all fail); in the other
direction a scalar identifier is accepted wherever the array-element class is
required, because `AIDENT` is a superset of `IDENT` — neither class is
coerced, both lower to plain strings. -/
theorem C6_identifier_class_separation (w : String) (hw : hasBracket w = true) :
    isIdent w = false ∧
    (∀ rest : List Tok, matchLabel (Tok.word w :: Tok.colon :: rest) = none) ∧
    (∀ (t : String) (lt : Tok) (rest : List Tok),
      matchConst (Tok.word w :: Tok.colon :: Tok.word t :: Tok.eq ::
        Tok.word "const" :: lt :: Tok.semi :: rest) = none) ∧
    (∀ (t o : String) (rest : List Tok),
      matchVop (Tok.word w :: Tok.colon :: Tok.word t :: Tok.eq ::
        Tok.word o :: rest) = none) ∧
    (∀ (o : String) (pre : List String) (post : List Tok), pre.all isIdent = true →
      matchEop (Tok.word o :: (pre.map Tok.word ++ Tok.word w :: post)) = none) ∧
    (∀ s : String, isIdent s = true → isAident s = true) := by
  have hid : isIdent w = false := by
    cases hi : isIdent w with
    | false => rfl
    | true => exact absurd hw (by simp [ident_no_bracket hi])
  refine ⟨hid, ?_, ?_, ?_, ?_, fun s hs => ident_aident hs⟩
  · intro rest
    unfold matchLabel
    dsimp only
    rw [if_neg (by simp [hid])]
  · intro t lt rest
    unfold matchConst
    dsimp only
    rw [if_neg (by simp [hid])]
  · intro t o rest
    unfold matchVop
    dsimp only
    rw [if_neg (by simp [hid])]
  · intro o pre post hpre
    unfold matchEop
    dsimp only
    by_cases ho : isCname o = true
    · rw [if_pos ho, takeArgs_stop isIdent pre w post hpre hid]
    · rw [if_neg ho]

/-- C6 (witness): the rejections at the bracketed identifier `x[1]` and the
superset acceptance at the scalar identifier `y`. -/
theorem C6_witness :
    hasBracket "x[1]" = true ∧ isIdent "x[1]" = false ∧
    matchLabel [Tok.word "x[1]", Tok.colon] = none ∧
    matchEop [Tok.word "print", Tok.word "x[1]", Tok.semi] = none ∧
    isAident "y" = true := by
  have h := C6_identifier_class_separation "x[1]" (by decide)
  exact ⟨by decide, h.1, h.2.1 [],
    h.2.2.2.2.1 "print" [] [Tok.semi] (by decide), h.2.2.2.2.2 "y" (by decide)⟩

/-- C7: literal handling is exact and signed: the token `-42` lowers to the
integer −42 (also through the `lit` rule and the whole pipeline), `true`
lowers to the boolean true, and printing the boolean false emits exactly the
lowercase keyword `false`. -/
theorem C7_literal_fidelity :
    JSONTransformer.int "-42" = (-42 : Int) ∧
    JSONTransformer.bool "true" = true ∧
    litToString (Lit.bool false) = "false" ∧
    matchLit (Tok.int "-42") = some (Lit.int (-42)) ∧
    parse_bril "main \x7b\n  x: int = const -42;\n\x7d\n" =
      some (JSONTransformer.start [JSONTransformer.func "main"
        [JSONTransformer.const "x" "int" (Lit.int (-42))]]) ∧
    instr_to_string (JSONTransformer.const "x" "bool" (Lit.bool false)) =
      some "x: bool = const false" := by
  decide

/-- C8: the malformed instruction `x: int = ;` cannot be derived from the
grammar: the conversion fails (modelled as `none`) and no structured
representation — not even a partial one — is produced, both for the bare
instruction and inside a function. -/
theorem C8_syntax_error :
    parse_bril "x: int = ;" = none ∧
    parse_bril "main \x7b\n  x: int = ;\n\x7d\n" = none := by
  decide

/-- C9: the lowering functions for the `aop` and `vop` rules produce exactly
the same record for the same texts — the ValueOp/ArrayOp distinction is not
recorded: both yield `{op, dest, type, args}` with no `value` and no
`label`. -/
theorem C9_vop_aop_same_record (dest ty op : String) (args : List String) :
    JSONTransformer.aop dest ty op args = JSONTransformer.vop dest ty op args ∧
    (JSONTransformer.aop dest ty op args).value = none ∧
    (JSONTransformer.aop dest ty op args).label = none :=
  ⟨rfl, rfl, rfl⟩

/-- C10: the printer dispatches on the `op` string alone: when `op` is
`const` or `init` it ignores `args` entirely and reads `value`, so a
ValueOp-shaped record with such an opcode (which has `args` but no `value`)
cannot be printed — the access to the missing `value` key fails. -/
theorem C10_printer_dispatch (i : Instr)
    (h : i.op = some "const" ∨ i.op = some "init") :
    (∀ a : Option (List String),
      instr_to_string { i with args := a } = instr_to_string i) ∧
    (i.value = none → instr_to_string i = none) := by
  obtain ⟨op, dest, ty, val, args, lab⟩ := i
  rcases h with h | h
  · replace h : op = some "const" := h
    subst h
    refine ⟨fun a => rfl, fun hv => ?_⟩
    replace hv : val = none := hv
    subst hv
    cases dest <;> cases ty <;> rfl
  · replace h : op = some "init" := h
    subst h
    refine ⟨fun a => rfl, fun hv => ?_⟩
    replace hv : val = none := hv
    subst hv
    cases dest <;> cases ty <;> rfl

/-- C10 (witness): the record the parser produces for `x: int = const v;`
read as a `vop` — opcode string `const`, `args` present, no `value` — cannot
be printed. -/
theorem C10_witness :
    (JSONTransformer.vop "x" "int" "const" ["v"]).value = none ∧
    instr_to_string (JSONTransformer.vop "x" "int" "const" ["v"]) = none :=
  ⟨rfl, (C10_printer_dispatch (JSONTransformer.vop "x" "int" "const" ["v"])
    (Or.inl rfl)).2 rfl⟩
